import Mathlib

/-!
# ptrie: a frequency-counting prefix trie (`src/ptrie.c`)

Shallow embedding of `ptrie_allocate`, `ptrie_add` and `ptrie_autocomplete`.

Modelling conventions.

* A C string is the list of the values `(int)str[i]` of its characters up to
  (not including) the terminating NUL.  The values are kept as `Int` because
  `char` may be signed; a well-formed string has no `0` in it.
* `entries[k]` is a defined memory access only for `0 <= k < 256`
  (`slot`).  Any other index, the increment of a counter equal to `INT_MAX`,
  and `strdup(NULL)` are undefined behaviour: `ptrie_add` then yields `none`
  and `ptrie_autocomplete` yields `Outcome.undefined`.
* The heap is tree shaped (every node is owned by exactly one entry), so a
  `struct ptrie_node *` is an `Option ptrie_node` and the in-place updates of
  `ptrie_add` rebuild the path they walk.
* `malloc` may fail: every call, of `ptrie_allocate`, `ptrie_add` and
  `ptrie_autocomplete` alike, takes the list of results of its successive
  allocation requests (`true` = memory obtained); an exhausted list means
  that all further requests succeed.  A `return strdup(...)` whose allocation
  fails returns `NULL` (`Outcome.null`).
* The arguments `pt`, `str` and the field `pt->root` are not `NULL`.
* The `while` loop at lines 213-224 is run with an explicit bound on the
  number of iterations (`fuel`).
* The tree holds the contents of the heap blocks, not their addresses; for
  `ptrie_free` the blocks obtained and released are counted alongside
  (`ptrie_add_loop_blocks`, `recursive_frees`).
-/

namespace Ptrie

/-- A C string: the `(int)` values of its characters, NUL excluded. -/
abbrev CString := List Int

/-- The largest value of `int`. -/
def INT_MAX : Int := 2147483647

/-- `struct ptrie_entry` (lines 32-36); `node` is `struct ptrie_node`. -/
structure ptrie_entry (node : Type) where
  word : Option CString
  next : Option node
  counter : Int

/-- `struct ptrie_node` (lines 38-40): a table of 256 entries. -/
inductive ptrie_node where
  | mk (entries : Fin 256 → ptrie_entry ptrie_node)

/-- `struct ptrie` (lines 42-44). -/
structure ptrie where
  root : ptrie_node

/-- The entry table of a node. -/
def ptrie_node.entries : ptrie_node → Fin 256 → ptrie_entry ptrie_node
  | .mk entries => entries

/-- The result of `calloc(1, sizeof(struct ptrie_node))`: every entry has
`word = NULL`, `next = NULL`, `counter = 0`. -/
def calloc_node : ptrie_node :=
  .mk (fun _ => { word := none, next := none, counter := 0 })

/-- Result of the next allocation request. -/
def malloc_ok (alloc : List Bool) : Bool := alloc.headD true

/-- `ptrie_allocate` (lines 52-63): `none` is the `NULL` result. -/
def ptrie_allocate (alloc : List Bool) : Option ptrie :=
  if malloc_ok alloc then
    if malloc_ok alloc.tail then some { root := calloc_node }
    else none
  else none

/-- The table slot designated by `entries[c]`, when the access is in bounds. -/
def slot (c : Int) : Option (Fin 256) :=
  if h : 0 ≤ c ∧ c < 256 then some ⟨c.toNat, by omega⟩ else none

/-- The `for` loop of `ptrie_add` (lines 123-149).  `str` is the whole
string, the second argument is what remains from `str[i]` on, `curr` is the
node `curr` points to.  The result is the return value together with the
node as the loop leaves it; `none` is undefined behaviour. -/
def ptrie_add_loop (str : CString) :
    CString → ptrie_node → List Bool → Option (Int × ptrie_node)
  | [], curr, _ => some (0, curr)
  | c :: rest, .mk entries, alloc =>
    match slot c with
    | none => none
    | some k =>
      let e := entries k
      -- line 125: `str[i + 1] == '\0'`; line 127-130: a failed `strdup`
      if rest = [] ∧ malloc_ok alloc = false then
        some (-1, .mk (Function.update entries k { e with word := none }))
      -- line 131: `counter++`
      else if rest = [] ∧ e.counter = INT_MAX then none
      else
        let e1 : ptrie_entry ptrie_node :=
          if rest = [] then { e with word := some str, counter := e.counter + 1 } else e
        let alloc1 := if rest = [] then alloc.tail else alloc
        -- lines 137-147
        match e1.next with
        | none =>
          if malloc_ok alloc1 then
            (ptrie_add_loop str rest calloc_node alloc1.tail).map
              (fun r => (r.1, .mk (Function.update entries k { e1 with next := some r.2 })))
          else some (-1, .mk (Function.update entries k e1))
        | some n =>
          (ptrie_add_loop str rest n alloc1).map
            (fun r => (r.1, .mk (Function.update entries k { e1 with next := some r.2 })))

/-- `ptrie_add` (lines 115-151): return value and the store afterwards. -/
def ptrie_add (pt : ptrie) (str : CString) (alloc : List Bool) : Option (Int × ptrie) :=
  (ptrie_add_loop str str pt.root alloc).map (fun r => (r.1, { root := r.2 }))

/-- What a call of `ptrie_autocomplete` comes to: a string is returned,
`NULL` is returned, the call runs into undefined behaviour, or the bound on
the iterations is reached. -/
inductive Outcome where
  | ret (s : CString)
  | null
  | undefined
  | out_of_fuel
  deriving DecidableEq

/-- The statement `return strdup(s);` of `ptrie_autocomplete` (lines 198, 204,
216, 225): a copy of `s`, or `NULL` when the allocation fails. -/
def strdup_result (alloc : List Bool) (s : CString) : Outcome :=
  if malloc_ok alloc then .ret s else .null

/-- The second loop of `ptrie_autocomplete` (lines 210-225): `curr`, `j` are
the loop variables; each iteration uses one unit of `fuel`.  `alloc` holds
the allocator's answer to the one `strdup` of the call. -/
def ptrie_autocomplete_scan (str : CString) (alloc : List Bool) :
    Nat → ptrie_node → Nat → Outcome
  | 0, _, _ => .out_of_fuel
  | fuel + 1, curr, j =>
    if h : j < 256 then
      let e := curr.entries ⟨j, h⟩
      if e.counter > 0 then
        match e.word with
        | some w => strdup_result alloc w
        | none => .undefined
      else
        match e.next with
        | some n => ptrie_autocomplete_scan str alloc fuel n (0 + 1)
        | none => ptrie_autocomplete_scan str alloc fuel curr (j + 1)
    else strdup_result alloc str

/-- The first loop of `ptrie_autocomplete` (lines 194-207) followed by the
second one.  The argument after `alloc` is what remains of `str` from `str[i]`
on. -/
def ptrie_autocomplete_loop (fuel : Nat) (str : CString) (alloc : List Bool) :
    CString → ptrie_node → Outcome
  | [], curr => ptrie_autocomplete_scan str alloc fuel curr 0
  | c :: rest, curr =>
    match slot c with
    | none => .undefined
    | some k =>
      let e := curr.entries k
      -- line 197: `word != NULL && str[i + 1] == '\0'`
      match e.word, rest with
      | some w, [] => strdup_result alloc w
      | _, _ =>
        match e.next with
        | none => strdup_result alloc str
        | some n => ptrie_autocomplete_loop fuel str alloc rest n

/-- `ptrie_autocomplete` (lines 179-226); `alloc` holds the allocator's answer
to the `strdup` of the `return` statement the call ends with. -/
def ptrie_autocomplete (fuel : Nat) (pt : ptrie) (str : CString) (alloc : List Bool) :
    Outcome :=
  ptrie_autocomplete_loop fuel str alloc str pt.root

/-- One call of `ptrie_add`: the string and the allocator's answers. -/
structure add_call where
  str : CString
  alloc : List Bool

/-- A sequence of `ptrie_add` calls on a store, in order: the store
afterwards and the return values; `none` when a call has undefined behaviour. -/
def ptrie_add_calls : ptrie → List add_call → Option (ptrie × List Int)
  | pt, [] => some (pt, [])
  | pt, c :: cs =>
    match ptrie_add pt c.str c.alloc with
    | none => none
    | some (r, pt1) =>
      match ptrie_add_calls pt1 cs with
      | none => none
      | some (pt2, rs) => some (pt2, r :: rs)

/-- The calls adding the given strings with an allocator that never fails. -/
def adds (ws : List CString) : List add_call :=
  ws.map (fun w => { str := w, alloc := [] })

/-- The store after the calls, `calloc`-fresh if a call is undefined. -/
def store_after (cs : List add_call) : ptrie :=
  match ptrie_add_calls { root := calloc_node } cs with
  | some (pt, _) => pt
  | none => { root := calloc_node }

/-- The string "he". -/
def he : CString := [104, 101]

/-- The string "hey". -/
def hey : CString := [104, 101, 121]

/-- The string "hello". -/
def hello : CString := [104, 101, 108, 108, 111]

/-- The string "helloworld". -/
def helloworld : CString := [104, 101, 108, 108, 111, 119, 111, 114, 108, 100]

/-- The entry at which the string `q` terminates below node `n`: follow the
`next` pointers along all characters but the last, then take the slot of the
last one.  `none` when the path leaves the allocated nodes. -/
def entry_at : ptrie_node → CString → Option (ptrie_entry ptrie_node)
  | _, [] => none
  | n, c :: rest =>
    match slot c with
    | none => none
    | some k =>
      if rest = [] then some (n.entries k)
      else
        match (n.entries k).next with
        | none => none
        | some m => entry_at m rest

/-- A `calloc`-fresh entry. -/
def zero_entry : ptrie_entry ptrie_node := { word := none, next := none, counter := 0 }

/-- The entry at which `q` terminates, read as a fresh one when absent. -/
def obs (n : ptrie_node) (q : CString) : ptrie_entry ptrie_node :=
  (entry_at n q).getD zero_entry

/-- The node `n`, reached from the root along `p`, records exactly the
additions `ws`: the entry at which `p ++ q` terminates counts the additions of
`p ++ q`, holds that string once it was added, and has a child as soon as an
added string runs through it. -/
def Records (ws : List CString) (p : CString) (n : ptrie_node) : Prop :=
  ∀ q : CString, q ≠ [] →
    (obs n q).counter = (ws.count (p ++ q) : Int) ∧
    (obs n q).word = (if 0 < ws.count (p ++ q) then some (p ++ q) else none) ∧
    ((obs n q).next.isSome ↔ ∃ w ∈ ws, (p ++ q) <+: w)

/-- The strings of a sequence of calls. -/
def call_strs (cs : List add_call) : List CString := cs.map (fun c => c.str)

/-- Length of the longest string of a list. -/
def max_len : List CString → Nat
  | [] => 0
  | w :: ws => max w.length (max_len ws)

/-- No entry of `n` from slot `j` on terminates a string or has a child. -/
def unused_from (n : ptrie_node) (j : Nat) : Prop :=
  ∀ k : Fin 256, j ≤ k.val → (n.entries k).counter ≤ 0 ∧ (n.entries k).next = none

/-- The strings are C strings: no character is the terminating NUL. -/
def no_nul (ws : List CString) : Prop := ∀ w ∈ ws, ∀ c ∈ w, c ≠ 0

/-- A client session: allocate a store, make the calls, query once (`alloc` is
the allocator's answer to the query).  The return values of the calls and
what the query comes to; `none` when the allocation of the store fails or a
call of `ptrie_add` has undefined behaviour. -/
def session (al0 : List Bool) (cs : List add_call) (fuel : Nat) (p : CString)
    (alloc : List Bool) : Option (List Int × Outcome) :=
  match ptrie_allocate al0 with
  | none => none
  | some pt0 =>
    match ptrie_add_calls pt0 cs with
    | none => none
    | some (pt, rets) => some (rets, ptrie_autocomplete fuel pt p alloc)

/-- Word and counter of the entry at which `q` terminates, if it exists. -/
def word_counter_at (pt : ptrie) (q : CString) : Option (Option CString × Int) :=
  (entry_at pt.root q).map (fun e => (e.word, e.counter))

/-- Whether the entry at which `q` terminates has a child, if it exists. -/
def has_child_at (pt : ptrie) (q : CString) : Option Bool :=
  (entry_at pt.root q).map (fun e => e.next.isSome)

/-- The value of `(int)str[i]` for a character stored as the byte `b`
(0..255).  Whether plain `char` is signed is fixed by the platform; where it
is (x86-64 among others) the bytes 128..255 are the values -128..-1. -/
def char_to_int (char_is_signed : Bool) (b : Nat) : Int :=
  if char_is_signed = true ∧ 128 ≤ b then (b : Int) - 256 else (b : Int)

/-- What holds of a node `n`, reached from the root along `p`, after any calls
of `ptrie_add` with the strings `ws`, failed ones included: a stored word is
the string of its path, and a child exists only along a string of `ws`. -/
def Attempted (ws : List CString) (p : CString) (n : ptrie_node) : Prop :=
  ∀ q : CString, q ≠ [] →
    (∀ s, (obs n q).word = some s → s = p ++ q) ∧
    ((obs n q).next.isSome → ∃ w ∈ ws, (p ++ q) <+: w)

/-- The entry reached from `n` by the slot indices `ks`: through the children
of all slots but the last, then the entry of the last slot. -/
def entry_on_path : ptrie_node → List (Fin 256) → Option (ptrie_entry ptrie_node)
  | _, [] => none
  | n, k :: ks =>
    if ks = [] then some (n.entries k)
    else
      match (n.entries k).next with
      | none => none
      | some m => entry_on_path m ks

/-- The string spelled by a path of slot indices. -/
def spelled (ks : List (Fin 256)) : CString := ks.map (fun k => (k.val : Int))

/-- Number of times the second loop of `ptrie_autocomplete` runs line 220
(`curr = curr->entries[j].next`), counted along `ptrie_autocomplete_scan`. -/
def ptrie_autocomplete_scan_descents : Nat → ptrie_node → Nat → Nat
  | 0, _, _ => 0
  | fuel + 1, curr, j =>
    if h : j < 256 then
      let e := curr.entries ⟨j, h⟩
      if e.counter > 0 then 0
      else
        match e.next with
        | some n => 1 + ptrie_autocomplete_scan_descents fuel n (0 + 1)
        | none => ptrie_autocomplete_scan_descents fuel curr (j + 1)
    else 0

/-- Number of descents of the second loop in a call of `ptrie_autocomplete`,
counted along `ptrie_autocomplete_loop`: none when the first loop returns. -/
def ptrie_autocomplete_loop_descents (fuel : Nat) : CString → ptrie_node → Nat
  | [], curr => ptrie_autocomplete_scan_descents fuel curr 0
  | c :: rest, curr =>
    match slot c with
    | none => 0
    | some k =>
      let e := curr.entries k
      match e.word, rest with
      | some _, [] => 0
      | _, _ =>
        match e.next with
        | none => 0
        | some n => ptrie_autocomplete_loop_descents fuel rest n

/-- Number of descents of the second loop in `ptrie_autocomplete(pt, str)`. -/
def ptrie_autocomplete_descents (fuel : Nat) (pt : ptrie) (str : CString) : Nat :=
  ptrie_autocomplete_loop_descents fuel str pt.root

/-- The store `pt'` is reached from `pt` by successful `ptrie_add` calls of the
strings `ws`, in order, whatever the allocator answered in each call. -/
def Adds : ptrie → List CString → ptrie → Prop
  | pt, [], pt' => pt' = pt
  | pt, w :: ws, pt' => ∃ alloc q, ptrie_add pt w alloc = some (0, q) ∧ Adds q ws pt'

/-- Number of heap blocks `ptrie_allocate` leaves allocated: the store and its
root node, or none when an allocation fails (line 59 frees the store). -/
def ptrie_allocate_blocks (alloc : List Bool) : Nat :=
  if malloc_ok alloc then
    if malloc_ok alloc.tail then 2
    else 0
  else 0

/-- Number of heap blocks the loop of `ptrie_add` obtains, counted along
`ptrie_add_loop`: one for each successful `strdup` (line 127) and each
successful `calloc` (line 139).  The function never calls `free`. -/
def ptrie_add_loop_blocks : CString → ptrie_node → List Bool → Nat
  | [], _, _ => 0
  | c :: rest, .mk entries, alloc =>
    match slot c with
    | none => 0
    | some k =>
      let e := entries k
      if rest = [] ∧ malloc_ok alloc = false then 0
      else
        let copy := if rest = [] then 1 else 0
        if rest = [] ∧ e.counter = INT_MAX then copy
        else
          let alloc1 := if rest = [] then alloc.tail else alloc
          match e.next with
          | none =>
            if malloc_ok alloc1 then
              copy + 1 + ptrie_add_loop_blocks rest calloc_node alloc1.tail
            else copy
          | some n => copy + ptrie_add_loop_blocks rest n alloc1

/-- Number of heap blocks obtained by the calls of a sequence. -/
def ptrie_add_calls_blocks : ptrie → List add_call → Nat
  | _, [] => 0
  | pt, c :: cs =>
    ptrie_add_loop_blocks c.str pt.root c.alloc +
      match ptrie_add pt c.str c.alloc with
      | none => 0
      | some (_, pt1) => ptrie_add_calls_blocks pt1 cs

/-- Number of heap blocks `recursive` (lines 73-86) releases below and with a
node: for each of the 256 entries the blocks of its child, then its word when
there is one (`free(NULL)` releases nothing), and in the end the node itself.
`fuel` bounds the depth of the recursion. -/
def recursive_frees : Nat → ptrie_node → Option Nat
  | 0, _ => none
  | fuel + 1, .mk entries =>
    ((List.finRange 256).foldl
      (fun acc i =>
        match acc with
        | none => none
        | some a =>
          let w := if (entries i).word.isSome then 1 else 0
          match (entries i).next with
          | none => some (a + w)
          | some m =>
            match recursive_frees fuel m with
            | none => none
            | some b => some (a + b + w))
      (some 0)).map (fun a => a + 1)

/-- Number of heap blocks `ptrie_free` (lines 88-94) releases: those of the
root node and the store itself. -/
def ptrie_free_frees (fuel : Nat) (pt : ptrie) : Option Nat :=
  (recursive_frees fuel pt.root).map (fun a => a + 1)

/-- The outcome of a query whose `strdup` is answered by `alloc`, given its
outcome when the allocation succeeds. -/
def Outcome.on_alloc (alloc : List Bool) : Outcome → Outcome
  | .ret s => strdup_result alloc s
  | o => o

/-- What holds of the words below a node `n`, reached from the root along `p`,
after any calls of `ptrie_add` with the strings `ws`, failed ones included:
an entry holds a word only where a string of `ws` ends. -/
def WordsPassed (ws : List CString) (p : CString) (n : ptrie_node) : Prop :=
  ∀ q : CString, q ≠ [] → (obs n q).word.isSome → p ++ q ∈ ws

/-- The string "xyz". -/
def xyz : CString := [120, 121, 122]

/-- The string "ab". -/
def ab : CString := [97, 98]

/-! ## Table slots -/

theorem slot_eq_some {c : Int} {k : Fin 256} (h : slot c = some k) :
    0 ≤ c ∧ c < 256 ∧ (k.val : Int) = c := by
  unfold slot at h
  split at h
  · rename_i hc
    simp only [Option.some.injEq] at h
    subst h
    refine ⟨hc.1, hc.2, ?_⟩
    simp [Int.toNat_of_nonneg hc.1]
  · simp at h

theorem slot_inj {c d : Int} {k : Fin 256} (hc : slot c = some k) (hd : slot d = some k) :
    c = d := by
  have h1 := slot_eq_some hc
  have h2 := slot_eq_some hd
  omega

theorem slot_of_fin (k : Fin 256) : slot (k.val : Int) = some k := by
  unfold slot
  have h : (0 : Int) ≤ (k.val : Int) ∧ (k.val : Int) < 256 := by
    have := k.isLt
    omega
  rw [dif_pos h]
  simp

theorem slot_isSome_iff (c : Int) : (slot c).isSome ↔ 0 ≤ c ∧ c < 256 := by
  unfold slot
  split <;> simp_all

/-! ## Reading entries -/

@[simp] theorem entries_mk (f : Fin 256 → ptrie_entry ptrie_node) :
    (ptrie_node.mk f).entries = f := rfl

theorem obs_single (n : ptrie_node) (c : Int) (k : Fin 256) (h : slot c = some k) :
    obs n [c] = n.entries k := by
  simp [obs, entry_at, h]

theorem obs_single_none (n : ptrie_node) (c : Int) (h : slot c = none) (q : CString) :
    obs n (c :: q) = zero_entry := by
  simp [obs, entry_at, h]

theorem obs_cons_some (n m : ptrie_node) (c : Int) (k : Fin 256) (q : CString)
    (h : slot c = some k) (hq : q ≠ []) (hm : (n.entries k).next = some m) :
    obs n (c :: q) = obs m q := by
  simp [obs, entry_at, h, hq, hm]

theorem obs_cons_none (n : ptrie_node) (c : Int) (k : Fin 256) (q : CString)
    (h : slot c = some k) (hq : q ≠ []) (hm : (n.entries k).next = none) :
    obs n (c :: q) = zero_entry := by
  simp [obs, entry_at, h, hq, hm]

theorem obs_calloc (q : CString) : obs calloc_node q = zero_entry := by
  cases q with
  | nil => simp [obs, entry_at]
  | cons c q =>
    cases h : slot c with
    | none => exact obs_single_none _ _ h _
    | some k =>
      by_cases hq : q = []
      · subst hq
        rw [obs_single _ _ _ h]
        rfl
      · exact obs_cons_none _ _ _ _ h hq rfl

theorem obs_cons_getD (n : ptrie_node) (c : Int) (k : Fin 256) (q : CString)
    (h : slot c = some k) (hq : q ≠ []) :
    obs n (c :: q) = obs ((n.entries k).next.getD calloc_node) q := by
  cases hm : (n.entries k).next with
  | none => rw [obs_cons_none _ _ _ _ h hq hm, Option.getD_none, obs_calloc]
  | some m => rw [obs_cons_some _ _ _ _ _ h hq hm, Option.getD_some]

/-! ## One call of `ptrie_add` -/

/-- Shape of the node after a successful pass of the loop over `c :: rest`. -/
theorem add_loop_cons_ok {str rest : CString} {c : Int}
    {entries : Fin 256 → ptrie_entry ptrie_node} {alloc : List Bool} {n' : ptrie_node}
    (h : ptrie_add_loop str (c :: rest) (.mk entries) alloc = some (0, n')) :
    ∃ (k : Fin 256) (m' : ptrie_node) (alloc' : List Bool),
      slot c = some k ∧
      ptrie_add_loop str rest ((entries k).next.getD calloc_node) alloc' = some (0, m') ∧
      n' = .mk (Function.update entries k
        { word := if rest = [] then some str else (entries k).word,
          next := some m',
          counter := if rest = [] then (entries k).counter + 1 else (entries k).counter }) := by
  unfold ptrie_add_loop at h
  cases hk : slot c with
  | none => simp [hk] at h
  | some k =>
    simp only [hk] at h
    by_cases hrest : rest = []
    · simp only [hrest, true_and, if_true] at h ⊢
      by_cases ha : malloc_ok alloc = false
      · simp [ha] at h
      · by_cases hc : (entries k).counter = INT_MAX
        · simp [ha, hc] at h
        · simp only [ha, hc, if_false] at h
          cases hnext : (entries k).next with
          | none =>
            simp only [hnext] at h
            by_cases ha2 : malloc_ok alloc.tail = true
            · simp [ha2] at h
              obtain ⟨r, m', hrec, rfl, rfl⟩ := h
              exact ⟨k, m', _, rfl, by simpa [hnext] using hrec, rfl⟩
            · simp [ha2] at h
          | some m =>
            simp only [hnext] at h
            simp at h
            obtain ⟨r, m', hrec, rfl, rfl⟩ := h
            exact ⟨k, m', _, rfl, by simpa [hnext] using hrec, rfl⟩
    · simp only [hrest, false_and, if_false] at h ⊢
      cases hnext : (entries k).next with
      | none =>
        simp only [hnext] at h
        by_cases ha2 : malloc_ok alloc = true
        · simp [ha2] at h
          obtain ⟨r, m', hrec, rfl, rfl⟩ := h
          exact ⟨k, m', _, rfl, by simpa [hnext] using hrec, rfl⟩
        · simp [ha2] at h
      | some m =>
        simp only [hnext] at h
        simp at h
        obtain ⟨r, m', hrec, rfl, rfl⟩ := h
        exact ⟨k, m', _, rfl, by simpa [hnext] using hrec, rfl⟩

/-- Effect of a successful pass of the loop on every entry below the node. -/
theorem add_loop_obs (str : CString) :
    ∀ (w : CString) (n n' : ptrie_node) (alloc : List Bool),
      ptrie_add_loop str w n alloc = some (0, n') →
      ∀ q : CString, q ≠ [] →
        (obs n' q).counter = (obs n q).counter + (if q = w then 1 else 0) ∧
        (obs n' q).word = (if q = w then some str else (obs n q).word) ∧
        ((obs n' q).next.isSome ↔ ((obs n q).next.isSome ∨ q <+: w)) := by
  intro w
  induction w with
  | nil =>
    intro n n' alloc h q hq
    simp only [ptrie_add_loop, Option.some.injEq, Prod.mk.injEq, true_and] at h
    subst h
    simp [hq]
  | cons c rest ih =>
    intro n n' alloc h q hq
    cases n with
    | mk entries =>
      obtain ⟨k, m', alloc', hk, hrec, rfl⟩ := add_loop_cons_ok h
      have ih' := ih _ _ _ hrec
      cases q with
      | nil => exact absurd rfl hq
      | cons d q' =>
        cases hd : slot d with
        | none =>
          have hdc : d ≠ c := by
            rintro rfl
            simp [hk] at hd
          rw [obs_single_none _ _ hd, obs_single_none _ _ hd]
          simp [hdc, zero_entry, List.cons_prefix_cons]
        | some k' =>
          by_cases hkk : k' = k
          · subst hkk
            have hdc : d = c := slot_inj hd hk
            subst hdc
            by_cases hq' : q' = []
            · subst hq'
              rw [obs_single _ _ _ hk, obs_single _ _ _ hk]
              by_cases hrest : rest = []
              · simp [hrest]
              · have : ¬ ([] : CString) = rest := fun h => hrest h.symm
                simp [hrest, this, List.cons_prefix_cons]
            · rw [obs_cons_some _ m' _ _ _ hk hq' (by simp), obs_cons_getD _ _ _ _ hk hq']
              simpa [List.cons_prefix_cons] using ih' q' hq'
          · have hdc : d ≠ c := by
              rintro rfl
              rw [hk] at hd
              exact hkk (Option.some.inj hd).symm
            have hsame : obs (ptrie_node.mk (Function.update entries k
                { word := if rest = [] then some str else (entries k).word,
                  next := some m',
                  counter := if rest = [] then (entries k).counter + 1
                    else (entries k).counter })) (d :: q') = obs (ptrie_node.mk entries) (d :: q') := by
              by_cases hq' : q' = []
              · subst hq'
                rw [obs_single _ _ _ hd, obs_single _ _ _ hd]
                simp [Function.update_noteq hkk]
              · rw [obs_cons_getD _ _ _ _ hd hq', obs_cons_getD _ _ _ _ hd hq']
                simp [Function.update_noteq hkk]
            rw [hsame]
            simp [hdc, List.cons_prefix_cons]

/-- Shape of the node after any pass of the loop over `c :: rest`, failed
allocations included: only the entry of `c` changes; its word and counter
change only when `c` is the last character; its child is the old one or the
result of the pass over `rest` below the old one. -/
theorem add_loop_cons_any {str rest : CString} {c : Int}
    {entries : Fin 256 → ptrie_entry ptrie_node} {alloc : List Bool} {r : Int}
    {n' : ptrie_node}
    (h : ptrie_add_loop str (c :: rest) (.mk entries) alloc = some (r, n')) :
    ∃ (k : Fin 256) (e' : ptrie_entry ptrie_node),
      slot c = some k ∧ n' = .mk (Function.update entries k e') ∧
      (rest ≠ [] → e'.word = (entries k).word ∧ e'.counter = (entries k).counter) ∧
      (e'.next = (entries k).next ∨
        ∃ (m' : ptrie_node) (alloc' : List Bool), e'.next = some m' ∧
          ptrie_add_loop str rest ((entries k).next.getD calloc_node) alloc' = some (r, m')) := by
  unfold ptrie_add_loop at h
  cases hk : slot c with
  | none => simp [hk] at h
  | some k =>
    simp only [hk] at h
    by_cases hrest : rest = []
    · simp only [hrest, true_and, if_true] at h ⊢
      by_cases ha : malloc_ok alloc = false
      · simp only [ha, if_true, Option.some.injEq, Prod.mk.injEq] at h
        exact ⟨k, _, rfl, h.2.symm, fun hne => absurd rfl hne, Or.inl rfl⟩
      · by_cases hc : (entries k).counter = INT_MAX
        · simp [ha, hc] at h
        · simp only [ha, hc, if_false] at h
          cases hnext : (entries k).next with
          | none =>
            simp only [hnext] at h
            by_cases ha2 : malloc_ok alloc.tail = true
            · simp [ha2] at h
              obtain ⟨r', m', hrec, rfl, rfl⟩ := h
              exact ⟨k, _, rfl, rfl, fun hne => absurd rfl hne,
                Or.inr ⟨m', _, rfl, by simpa [hnext] using hrec⟩⟩
            · simp [ha2] at h
              exact ⟨k, _, rfl, h.2.symm, fun hne => absurd rfl hne, Or.inl hnext.symm⟩
          | some m =>
            simp only [hnext] at h
            simp at h
            obtain ⟨r', m', hrec, rfl, rfl⟩ := h
            exact ⟨k, _, rfl, rfl, fun hne => absurd rfl hne,
              Or.inr ⟨m', _, rfl, by simpa [hnext] using hrec⟩⟩
    · simp only [hrest, false_and, if_false] at h ⊢
      cases hnext : (entries k).next with
      | none =>
        simp only [hnext] at h
        by_cases ha2 : malloc_ok alloc = true
        · simp [ha2] at h
          obtain ⟨r', m', hrec, rfl, rfl⟩ := h
          exact ⟨k, _, rfl, rfl, fun _ => ⟨rfl, rfl⟩,
            Or.inr ⟨m', _, rfl, by simpa [hnext] using hrec⟩⟩
        · simp [ha2] at h
          refine ⟨k, entries k, rfl, ?_, fun _ => ⟨rfl, rfl⟩, Or.inl rfl⟩
          rw [← h.2, Function.update_eq_self]
      | some m =>
        simp only [hnext] at h
        simp at h
        obtain ⟨r', m', hrec, rfl, rfl⟩ := h
        exact ⟨k, _, rfl, rfl, fun _ => ⟨rfl, rfl⟩,
          Or.inr ⟨m', _, rfl, by simpa [hnext] using hrec⟩⟩

/-- A pass of the loop, successful or not, keeps every entry at which a string
other than the added one terminates, with its word and counter. -/
theorem add_loop_frame (str : CString) :
    ∀ (w : CString) (n n' : ptrie_node) (alloc : List Bool) (r : Int),
      ptrie_add_loop str w n alloc = some (r, n') →
      ∀ (v : CString) (e : ptrie_entry ptrie_node), v ≠ w → entry_at n v = some e →
        ∃ e', entry_at n' v = some e' ∧ e'.word = e.word ∧ e'.counter = e.counter := by
  intro w
  induction w with
  | nil =>
    intro n n' alloc r h v e _ he
    simp only [ptrie_add_loop, Option.some.injEq, Prod.mk.injEq] at h
    rw [← h.2]
    exact ⟨e, he, rfl, rfl⟩
  | cons c rest ih =>
    intro n n' alloc r h v e hvw he
    cases n with
    | mk entries =>
      obtain ⟨k, e1, hk, rfl, hsame, hnext⟩ := add_loop_cons_any h
      cases v with
      | nil => simp [entry_at] at he
      | cons d v' =>
        cases hd : slot d with
        | none => simp [entry_at, hd] at he
        | some k' =>
          by_cases hkk : k' = k
          · subst hkk
            have hdc : d = c := slot_inj hd hk
            subst hdc
            have hv' : v' ≠ rest := fun h => hvw (by rw [h])
            by_cases hq : v' = []
            · subst hq
              have hrest : rest ≠ [] := fun h => hv' h.symm
              simp only [entry_at, hk, if_true, Option.some.injEq, entries_mk] at he ⊢
              subst he
              exact ⟨_, by rw [Function.update_same], (hsame hrest).1, (hsame hrest).2⟩
            · simp only [entry_at, hk, hq, if_false, entries_mk, Function.update_same] at he ⊢
              cases hm : (entries k').next with
              | none => simp [hm] at he
              | some m =>
                simp only [hm] at he
                rcases hnext with hnext | ⟨m', alloc', hnext, hrec⟩
                · rw [hnext, hm]
                  exact ⟨e, he, rfl, rfl⟩
                · rw [hnext]
                  rw [hm, Option.getD_some] at hrec
                  exact ih m m' alloc' r hrec v' e hv' he
          · by_cases hq : v' = []
            · subst hq
              simp only [entry_at, hd, if_true, Option.some.injEq, entries_mk] at he ⊢
              exact ⟨e, by rw [Function.update_noteq hkk, he], rfl, rfl⟩
            · simp only [entry_at, hd, hq, if_false, entries_mk] at he ⊢
              rw [Function.update_noteq hkk]
              exact ⟨e, he, rfl, rfl⟩

/-! ## The trie after a sequence of successful calls -/

theorem Records_calloc : Records [] [] calloc_node := by
  intro q _
  rw [obs_calloc]
  simp [zero_entry]

theorem Records_add {ws : List CString} {w : CString} {n n' : ptrie_node} {alloc : List Bool}
    (hn : Records ws [] n) (h : ptrie_add_loop w w n alloc = some (0, n')) :
    Records (ws ++ [w]) [] n' := by
  intro q hq
  obtain ⟨h1, h2, h3⟩ := add_loop_obs w w n n' alloc h q hq
  obtain ⟨g1, g2, g3⟩ := hn q hq
  simp only [List.nil_append] at g1 g2 g3 ⊢
  rw [h1, h2, h3, g1, g2, g3]
  have hcount : List.count q (ws ++ [w]) = List.count q ws + (if q = w then 1 else 0) := by
    rw [List.count_append, List.count_singleton]
    by_cases hqw : q = w
    · simp [hqw]
    · have : ¬ w = q := fun h => hqw h.symm
      simp [hqw, this]
  refine ⟨?_, ?_, ?_⟩
  · rw [hcount]
    push_cast
    rfl
  · rw [hcount]
    by_cases hqw : q = w
    · simp [hqw]
    · simp [hqw]
  · constructor
    · rintro (⟨v, hv, hp⟩ | hp)
      · exact ⟨v, List.mem_append_left _ hv, hp⟩
      · exact ⟨w, by simp, hp⟩
    · rintro ⟨v, hv, hp⟩
      rcases List.mem_append.mp hv with hv | hv
      · exact Or.inl ⟨v, hv, hp⟩
      · simp only [List.mem_singleton] at hv
        subst hv
        exact Or.inr hp

theorem Records_calls : ∀ (cs : List add_call) (ws : List CString) (pt pt' : ptrie)
    (rets : List Int), Records ws [] pt.root →
    ptrie_add_calls pt cs = some (pt', rets) → (∀ r ∈ rets, r = 0) →
    Records (ws ++ call_strs cs) [] pt'.root := by
  intro cs
  induction cs with
  | nil =>
    intro ws pt pt' rets hn h _
    simp only [ptrie_add_calls, Option.some.injEq, Prod.mk.injEq] at h
    rw [← h.1]
    simpa [call_strs] using hn
  | cons c cs ih =>
    intro ws pt pt' rets hn h hok
    simp only [ptrie_add_calls] at h
    cases h1 : ptrie_add pt c.str c.alloc with
    | none => simp [h1] at h
    | some r1 =>
      obtain ⟨r, pt1⟩ := r1
      simp only [h1] at h
      cases h2 : ptrie_add_calls pt1 cs with
      | none => simp [h2] at h
      | some r2 =>
        obtain ⟨pt2, rs⟩ := r2
        simp only [h2, Option.some.injEq, Prod.mk.injEq] at h
        obtain ⟨rfl, rfl⟩ := h
        have hr : r = 0 := hok r (by simp)
        subst hr
        unfold ptrie_add at h1
        simp only [Option.map_eq_some', Prod.mk.injEq, Prod.exists] at h1
        obtain ⟨r', n', hloop, hr', hpt⟩ := h1
        subst hr' hpt
        have := ih (ws ++ [c.str]) _ _ _ (Records_add hn hloop) h2
          (fun r hr => hok r (List.mem_cons_of_mem _ hr))
        simpa [call_strs, List.append_assoc] using this

theorem ptrie_allocate_root {alloc : List Bool} {pt : ptrie}
    (h : ptrie_allocate alloc = some pt) : pt.root = calloc_node := by
  unfold ptrie_allocate at h
  split at h
  · split at h
    · simp only [Option.some.injEq] at h
      rw [← h]
    · simp at h
  · simp at h

/-- After successful calls on a fresh store the root records their strings. -/
theorem Records_run {al0 : List Bool} {pt0 pt : ptrie} {cs : List add_call} {rets : List Int}
    (h0 : ptrie_allocate al0 = some pt0)
    (hrun : ptrie_add_calls pt0 cs = some (pt, rets)) (hok : ∀ r ∈ rets, r = 0) :
    Records (call_strs cs) [] pt.root := by
  have hn : Records [] [] pt0.root := by
    rw [ptrie_allocate_root h0]
    exact Records_calloc
  simpa using Records_calls cs [] pt0 pt rets hn hrun hok

theorem Records_child {ws : List CString} {p : CString} {n m : ptrie_node} {c : Int}
    {k : Fin 256} (hn : Records ws p n) (hk : slot c = some k)
    (hm : (n.entries k).next = some m) : Records ws (p ++ [c]) m := by
  intro q hq
  have := hn (c :: q) (by simp)
  rw [obs_cons_some _ _ _ _ _ hk hq hm] at this
  simpa [List.append_assoc] using this

theorem Records_entry {ws : List CString} {p : CString} {n : ptrie_node} {c : Int}
    {k : Fin 256} (hn : Records ws p n) (hk : slot c = some k) :
    (n.entries k).counter = (ws.count (p ++ [c]) : Int) ∧
    (n.entries k).word = (if 0 < ws.count (p ++ [c]) then some (p ++ [c]) else none) ∧
    ((n.entries k).next.isSome ↔ ∃ w ∈ ws, (p ++ [c]) <+: w) := by
  have := hn [c] (by simp)
  rwa [obs_single _ _ _ hk] at this

theorem le_max_len {ws : List CString} {w : CString} (h : w ∈ ws) : w.length ≤ max_len ws := by
  induction ws with
  | nil => simp at h
  | cons v ws ih =>
    simp only [max_len]
    rcases List.mem_cons.mp h with h | h
    · subst h
      exact le_max_left _ _
    · exact le_trans (ih h) (le_max_right _ _)

/-! ## Calls that are defined and succeed -/

/-- With an allocator that never fails, the loop over a string whose
characters index the table succeeds, provided no counter below the node has
reached `INT_MAX`. -/
theorem add_loop_defined (str : CString) :
    ∀ (w : CString) (n : ptrie_node), (∀ c ∈ w, 0 ≤ c ∧ c < 256) →
      (∀ q : CString, q ≠ [] → (obs n q).counter ≠ INT_MAX) →
      ∃ n', ptrie_add_loop str w n [] = some (0, n') := by
  intro w
  induction w with
  | nil =>
    intro n _ _
    exact ⟨n, rfl⟩
  | cons c rest ih =>
    intro n hrange hmax
    cases n with
    | mk entries =>
      obtain ⟨k, hk⟩ := Option.isSome_iff_exists.mp
        ((slot_isSome_iff c).mpr (hrange c (by simp)))
      have hrest : ∀ c' ∈ rest, 0 ≤ c' ∧ c' < 256 :=
        fun c' hc' => hrange c' (List.mem_cons_of_mem _ hc')
      have hcnt : (entries k).counter ≠ INT_MAX := by
        have := hmax [c] (by simp)
        rwa [obs_single _ _ _ hk] at this
      have hchild : ∀ q : CString, q ≠ [] →
          (obs ((entries k).next.getD calloc_node) q).counter ≠ INT_MAX := by
        intro q hq
        have := hmax (c :: q) (by simp)
        rwa [obs_cons_getD _ _ _ _ hk hq] at this
      obtain ⟨m', hm'⟩ := ih ((entries k).next.getD calloc_node) hrest hchild
      unfold ptrie_add_loop
      simp only [hk]
      have hok : malloc_ok [] = true := rfl
      by_cases hr : rest = []
      · simp only [hr, true_and, hok, hcnt, if_true, if_false, List.tail_nil,
          Bool.true_eq_false]
        rw [hr] at hm'
        cases hnext : (entries k).next with
        | none =>
          rw [hnext] at hm'
          simp only [Option.getD_none] at hm'
          simp [hm']
        | some m =>
          rw [hnext] at hm'
          simp only [Option.getD_some] at hm'
          simp [hm']
      · simp only [hr, false_and, hok, if_true, if_false, List.tail_nil]
        cases hnext : (entries k).next with
        | none =>
          rw [hnext] at hm'
          simp only [Option.getD_none] at hm'
          simp [hm']
        | some m =>
          rw [hnext] at hm'
          simp only [Option.getD_some] at hm'
          simp [hm']

/-- Fewer than `INT_MAX` additions of strings whose characters index the
table, made with an allocator that never fails, are all defined and return 0. -/
theorem adds_defined : ∀ (ws ws0 : List CString) (pt : ptrie), Records ws0 [] pt.root →
    (∀ w ∈ ws, ∀ c ∈ w, 0 ≤ c ∧ c < 256) → ws0.length + ws.length < 2147483647 →
    ∃ pt', ptrie_add_calls pt (adds ws) = some (pt', List.replicate ws.length 0) := by
  intro ws
  induction ws with
  | nil =>
    intro ws0 pt _ _ _
    exact ⟨pt, rfl⟩
  | cons w ws ih =>
    intro ws0 pt hn hrange hlen
    simp only [List.length_cons] at hlen
    have hmax : ∀ q : CString, q ≠ [] → (obs pt.root q).counter ≠ INT_MAX := by
      intro q hq
      have h1 := (hn q hq).1
      have h2 : List.count ([] ++ q) ws0 ≤ ws0.length := List.count_le_length _ _
      rw [h1]
      unfold INT_MAX
      omega
    obtain ⟨n', hn'⟩ := add_loop_defined w w pt.root (hrange w (by simp)) hmax
    obtain ⟨pt', hpt'⟩ := ih (ws0 ++ [w]) { root := n' } (Records_add hn hn')
      (fun v hv => hrange v (List.mem_cons_of_mem _ hv))
      (by simp only [List.length_append, List.length_singleton]; omega)
    refine ⟨pt', ?_⟩
    simp only [adds, List.map_cons, ptrie_add_calls, ptrie_add, hn', Option.map_some']
    simp only [adds] at hpt'
    simp only [hpt', List.length_cons, List.replicate_succ]

/-- On a fresh store, fewer than `INT_MAX` additions of strings whose
characters index the table are all defined and return 0 when no allocation
fails. -/
theorem adds_succeed (ws : List CString) (hrange : ∀ w ∈ ws, ∀ c ∈ w, 0 ≤ c ∧ c < 256)
    (hlen : ws.length < 2147483647) :
    ∃ pt0 pt, ptrie_allocate [] = some pt0 ∧
      ptrie_add_calls pt0 (adds ws) = some (pt, List.replicate ws.length 0) := by
  obtain ⟨pt, hpt⟩ := adds_defined ws [] { root := calloc_node } Records_calloc hrange
    (by simpa using hlen)
  exact ⟨{ root := calloc_node }, pt, rfl, hpt⟩

/-! ## The allocation of the copy that `ptrie_autocomplete` returns -/

@[simp] theorem strdup_result_nil (s : CString) : strdup_result [] s = .ret s := rfl

theorem strdup_result_ne_out_of_fuel (alloc : List Bool) (s : CString) :
    strdup_result alloc s ≠ .out_of_fuel := by
  unfold strdup_result
  split <;> simp

theorem on_alloc_nil (o : Outcome) : o.on_alloc [] = o := by
  cases o <;> rfl

theorem on_alloc_strdup_result (alloc : List Bool) (s : CString) :
    (strdup_result [] s).on_alloc alloc = strdup_result alloc s := rfl

/-- The second loop with any allocator, from the loop whose allocation
succeeds. -/
theorem scan_on_alloc (str : CString) (alloc : List Bool) :
    ∀ (fuel : Nat) (n : ptrie_node) (j : Nat),
      ptrie_autocomplete_scan str alloc fuel n j
        = (ptrie_autocomplete_scan str [] fuel n j).on_alloc alloc := by
  intro fuel
  induction fuel with
  | zero =>
    intro n j
    rfl
  | succ f ih =>
    intro n j
    unfold ptrie_autocomplete_scan
    by_cases hj : j < 256
    · simp only [hj, dite_true]
      by_cases hc : (n.entries ⟨j, hj⟩).counter > 0
      · simp only [hc, if_true]
        cases (n.entries ⟨j, hj⟩).word with
        | none => rfl
        | some w => rfl
      · simp only [hc, if_false]
        cases (n.entries ⟨j, hj⟩).next with
        | none => exact ih n (j + 1)
        | some m => exact ih m (0 + 1)
    · simp only [hj, dite_false]
      rfl

theorem loop_on_alloc (fuel : Nat) (str : CString) (alloc : List Bool) :
    ∀ (s : CString) (n : ptrie_node),
      ptrie_autocomplete_loop fuel str alloc s n
        = (ptrie_autocomplete_loop fuel str [] s n).on_alloc alloc := by
  intro s
  induction s with
  | nil =>
    intro n
    simp only [ptrie_autocomplete_loop]
    exact scan_on_alloc str alloc fuel n 0
  | cons c rest ih =>
    intro n
    unfold ptrie_autocomplete_loop
    cases hk : slot c with
    | none => rfl
    | some k =>
      simp only
      cases hw : (n.entries k).word with
      | none =>
        cases hm : (n.entries k).next with
        | none => rfl
        | some m => exact ih m
      | some w =>
        cases rest with
        | nil => rfl
        | cons c' rest' =>
          cases hm : (n.entries k).next with
          | none => rfl
          | some m => exact ih m

/-- A query with any allocator, from the query whose allocation succeeds: the
same outcome, with `NULL` in place of the string when the allocation fails. -/
theorem autocomplete_on_alloc (fuel : Nat) (pt : ptrie) (p : CString) (alloc : List Bool) :
    ptrie_autocomplete fuel pt p alloc = (ptrie_autocomplete fuel pt p []).on_alloc alloc :=
  loop_on_alloc fuel p alloc p pt.root

theorem ret_on_alloc {fuel : Nat} {pt : ptrie} {p r : CString}
    (h : ptrie_autocomplete fuel pt p [] = .ret r) (alloc : List Bool) :
    ptrie_autocomplete fuel pt p alloc = strdup_result alloc r := by
  rw [autocomplete_on_alloc, h]
  rfl

/-- With enough fuel the scan below a node of a trie of successful additions
returns: either an added string that properly extends the node's path, or the
query string, and then only if no slot from `j` on is in use. -/
theorem scan_spec (ws : List CString) (str : CString) (L : Nat)
    (hL : ∀ w ∈ ws, w.length ≤ L) :
    ∀ (fuel d : Nat) (p : CString) (n : ptrie_node), Records ws p n → L ≤ p.length + d →
      ∀ (i j : Nat), i + j = 256 → 256 * d + i < fuel →
        ∃ r, ptrie_autocomplete_scan str [] fuel n j = .ret r ∧
          ((r ∈ ws ∧ p <+: r ∧ p.length < r.length) ∨
            (r = str ∧ (no_nul ws → unused_from n j))) := by
  intro fuel
  induction fuel with
  | zero =>
    intro d p n _ _ i j _ hf
    omega
  | succ f ih =>
    intro d p n hn hd i j hij hf
    unfold ptrie_autocomplete_scan
    by_cases hj : j < 256
    · simp only [hj, dite_true]
      have hk := slot_of_fin ⟨j, hj⟩
      obtain ⟨e1, e2, e3⟩ := Records_entry hn hk
      by_cases hc : (n.entries ⟨j, hj⟩).counter > 0
      · simp only [hc, if_true]
        have hpos : 0 < ws.count (p ++ [(j : Int)]) := by
          rw [e1] at hc
          exact_mod_cast hc
        rw [e2, if_pos hpos]
        exact ⟨_, rfl, Or.inl ⟨List.count_pos_iff.mp hpos, by simp, by simp⟩⟩
      · simp only [hc, if_false]
        cases hnext : (n.entries ⟨j, hj⟩).next with
        | some m =>
          simp only
          have hm := Records_child hn hk hnext
          obtain ⟨w, hw, hpw⟩ := e3.mp (by simp [hnext])
          have hlen : p.length + 1 ≤ w.length := by
            have := hpw.length_le
            simpa using this
          have hwL := hL w hw
          obtain ⟨r, hr, hcase⟩ := ih (d - 1) (p ++ [(j : Int)]) m hm
            (by simp only [List.length_append, List.length_singleton]; omega)
            255 1 (by norm_num) (by omega)
          refine ⟨r, hr, ?_⟩
          rcases hcase with ⟨h1, h2, h3⟩ | ⟨h1, h2⟩
          · left
            refine ⟨h1, (List.prefix_append p [(j : Int)]).trans h2, ?_⟩
            simp only [List.length_append, List.length_singleton] at h3
            omega
          · by_cases hwf : no_nul ws
            · exfalso
              have hun := h2 hwf
              have hcount0 : ws.count (p ++ [(j : Int)]) = 0 := by
                rw [e1] at hc
                have : ¬ (0 < ws.count (p ++ [(j : Int)])) := by
                  intro h
                  exact hc (by exact_mod_cast h)
                omega
              obtain ⟨t, ht⟩ := hpw
              cases t with
              | nil =>
                rw [List.append_nil] at ht
                rw [ht] at hcount0
                exact absurd (List.count_pos_iff.mpr hw) (by omega)
              | cons c t =>
                have hsome : (obs m [c]).next.isSome :=
                  (hm [c] (by simp)).2.2.mpr ⟨w, hw, ⟨t, by rw [← ht]; simp⟩⟩
                cases hkc : slot c with
                | none =>
                  rw [obs_single_none _ _ hkc] at hsome
                  simp [zero_entry] at hsome
                | some kc =>
                  rw [obs_single _ _ _ hkc] at hsome
                  have hc0 : c ≠ 0 := hwf w hw c (by rw [← ht]; simp)
                  have hkc1 : 1 ≤ kc.val := by
                    have := slot_eq_some hkc
                    omega
                  rw [(hun kc hkc1).2] at hsome
                  simp at hsome
            · right
              exact ⟨h1, fun h => absurd h hwf⟩
        | none =>
          simp only
          obtain ⟨r, hr, hcase⟩ := ih d p n hn hd (i - 1) (j + 1) (by omega) (by omega)
          refine ⟨r, hr, ?_⟩
          rcases hcase with h | ⟨h1, h2⟩
          · left
            exact h
          · right
            refine ⟨h1, fun hwf k hk' => ?_⟩
            by_cases hkj : k.val = j
            · have : k = ⟨j, hj⟩ := Fin.ext hkj
              subst this
              exact ⟨not_lt.mp hc, hnext⟩
            · exact h2 hwf k (by omega)
    · simp only [hj, dite_false]
      exact ⟨str, rfl, Or.inr ⟨rfl, fun _ k hk' => absurd k.isLt (by omega)⟩⟩

/-! ## The first loop of `ptrie_autocomplete` -/

/-- The walk along the query either returns the query itself (an added string,
or one that no added string starts with), or hands the node of the query over
to the second loop. -/
theorem loop_cases (ws : List CString) (str : CString) (fuel : Nat) :
    ∀ (s p : CString) (n : ptrie_node), Records ws p n → p ++ s = str →
      (∀ c ∈ s, 0 ≤ c ∧ c < 256) →
      (ptrie_autocomplete_loop fuel str [] s n = .ret str ∧
          (str ∈ ws ∨ ¬ ∃ w ∈ ws, str <+: w)) ∨
      (∃ m, Records ws str m ∧
          ptrie_autocomplete_loop fuel str [] s n = ptrie_autocomplete_scan str [] fuel m 0 ∧
          (s ≠ [] → ∃ w ∈ ws, str <+: w)) := by
  intro s
  induction s with
  | nil =>
    intro p n hn hps _
    rw [List.append_nil] at hps
    subst hps
    exact Or.inr ⟨n, hn, by simp [ptrie_autocomplete_loop], by simp⟩
  | cons c rest ih =>
    intro p n hn hps hrange
    have hc := hrange c (by simp)
    obtain ⟨k, hk⟩ := Option.isSome_iff_exists.mp ((slot_isSome_iff c).mpr hc)
    obtain ⟨e1, e2, e3⟩ := Records_entry hn hk
    have hpre : p ++ [c] <+: str := ⟨rest, by rw [← hps]; simp⟩
    unfold ptrie_autocomplete_loop
    simp only [hk]
    split
    · rename_i w' hw'
      left
      by_cases hpos : 0 < ws.count (p ++ [c])
      · rw [e2, if_pos hpos] at hw'
        simp only [Option.some.injEq] at hw'
        have hstr : str = p ++ [c] := by rw [← hps]
        rw [← hw', ← hstr]
        refine ⟨rfl, Or.inl ?_⟩
        rw [hstr]
        exact List.count_pos_iff.mp hpos
      · rw [e2, if_neg hpos] at hw'
        simp at hw'
    · rename_i rest _ _ _
      cases hnext : (n.entries k).next with
      | none =>
        left
        refine ⟨rfl, Or.inr ?_⟩
        rintro ⟨w, hw, hpw⟩
        have : (n.entries k).next.isSome := e3.mpr ⟨w, hw, hpre.trans hpw⟩
        rw [hnext] at this
        simp at this
      | some m =>
        simp only
        have hsome : ∃ w ∈ ws, p ++ [c] <+: w := e3.mp (by simp [hnext])
        rcases ih (p ++ [c]) m (Records_child hn hk hnext) (by rw [← hps]; simp)
          (fun c' hc' => hrange c' (List.mem_cons_of_mem _ hc')) with h | ⟨m', hm', heq, hex⟩
        · exact Or.inl h
        · refine Or.inr ⟨m', hm', heq, fun _ => ?_⟩
          by_cases hrest : rest = []
          · subst hrest
            rw [← hps]
            exact hsome
          · exact hex hrest

/-! ## `ptrie_autocomplete` after successful additions -/

theorem max_len_le {ws : List CString} {L : Nat} (h : ∀ w ∈ ws, w.length ≤ L) :
    max_len ws ≤ L := by
  induction ws with
  | nil => simp [max_len]
  | cons v ws ih =>
    simp only [max_len]
    exact max_le (h v (by simp)) (ih (fun w hw => h w (List.mem_cons_of_mem _ hw)))

/-- A node whose slots are all unused has no added string properly below it. -/
theorem unused_no_extension {ws : List CString} {p : CString} {m : ptrie_node}
    (hm : Records ws p m) (hun : unused_from m 0) :
    ∀ w ∈ ws, p <+: w → w = p := by
  rintro w hw ⟨t, ht⟩
  cases t with
  | nil => simpa using ht.symm
  | cons c t =>
    exfalso
    have hsome : (obs m [c]).next.isSome :=
      (hm [c] (by simp)).2.2.mpr ⟨w, hw, ⟨t, by rw [← ht]; simp⟩⟩
    cases hkc : slot c with
    | none =>
      rw [obs_single_none _ _ hkc] at hsome
      simp [zero_entry] at hsome
    | some kc =>
      rw [obs_single _ _ _ hkc, (hun kc (Nat.zero_le _)).2] at hsome
      simp at hsome

/-- After successful calls on a fresh store a query whose allocation succeeds
returns, given enough fuel: an added string that starts with the query, or
else the query itself, and then no added C string properly extends the
query. -/
theorem autocomplete_spec {al0 : List Bool} {pt0 pt : ptrie} {cs : List add_call}
    {rets : List Int} (h0 : ptrie_allocate al0 = some pt0)
    (hrun : ptrie_add_calls pt0 cs = some (pt, rets)) (hok : ∀ r ∈ rets, r = 0)
    (p : CString) (hp : ∀ c ∈ p, 0 ≤ c ∧ c < 256)
    (fuel : Nat) (hf : 256 * (max_len (call_strs cs) + 1) < fuel) :
    ∃ r, ptrie_autocomplete fuel pt p [] = .ret r ∧
      ((r ∈ call_strs cs ∧ p <+: r) ∨
        (r = p ∧ (no_nul (call_strs cs) → ∀ w ∈ call_strs cs, p <+: w → w = p))) := by
  have hn := Records_run h0 hrun hok
  unfold ptrie_autocomplete
  rcases loop_cases (call_strs cs) p fuel p [] pt.root hn rfl hp with
    ⟨hret, hmem | hnone⟩ | ⟨m, hm, heq, _⟩
  · exact ⟨p, hret, Or.inl ⟨hmem, List.prefix_refl p⟩⟩
  · exact ⟨p, hret, Or.inr ⟨rfl, fun _ w hw hpw => absurd ⟨w, hw, hpw⟩ hnone⟩⟩
  · obtain ⟨r, hr, hcase⟩ := scan_spec (call_strs cs) p (max_len (call_strs cs))
      (fun w hw => le_max_len hw) fuel (max_len (call_strs cs)) p m hm (by omega)
      256 0 rfl (by omega)
    rw [heq]
    refine ⟨r, hr, ?_⟩
    rcases hcase with ⟨h1, h2, _⟩ | ⟨h1, h2⟩
    · exact Or.inl ⟨h1, h2⟩
    · exact Or.inr ⟨h1, fun hwf => unused_no_extension hm (h2 hwf)⟩

/-- C4 (amended): when a string `w` of valid bytes (codes 32..255), non-empty
or not, was added `N >= 1` times with success to a fresh store and nothing
else was added, `ptrie_autocomplete` returns for every prefix `p` of `w`, the
empty prefix and `w` itself included, the result of `strdup(w)`: a copy of
exactly `w` when the allocation of the copy succeeds, `NULL` when it fails. -/
theorem autocomplete_single_word {al0 : List Bool} {pt0 pt : ptrie}
    {cs : List add_call} {rets : List Int} (h0 : ptrie_allocate al0 = some pt0)
    (hrun : ptrie_add_calls pt0 cs = some (pt, rets)) (hok : ∀ r ∈ rets, r = 0)
    (w : CString) (hvalid : ∀ c ∈ w, 32 ≤ c ∧ c < 256)
    (hN : 1 ≤ cs.length) (honly : ∀ c ∈ cs, c.str = w)
    (p : CString) (hpw : p <+: w)
    (fuel : Nat) (hf : 256 * (w.length + 1) < fuel) (alloc : List Bool) :
    ptrie_autocomplete fuel pt p alloc = strdup_result alloc w := by
  have hall : ∀ v ∈ call_strs cs, v = w := by
    intro v hv
    simp only [call_strs, List.mem_map] at hv
    obtain ⟨c, hc, rfl⟩ := hv
    exact honly c hc
  have hmem : w ∈ call_strs cs := by
    cases cs with
    | nil => simp at hN
    | cons c cs =>
      simp only [call_strs, List.map_cons, List.mem_cons]
      exact Or.inl (honly c (by simp)).symm
  have hlen : max_len (call_strs cs) ≤ w.length :=
    max_len_le (fun v hv => by rw [hall v hv])
  have hp : ∀ c ∈ p, 0 ≤ c ∧ c < 256 := by
    intro c hc
    have := hvalid c (hpw.subset hc)
    omega
  have hnul : no_nul (call_strs cs) := by
    intro v hv c hc
    rw [hall v hv] at hc
    have := hvalid c hc
    omega
  have hfuel : 256 * (max_len (call_strs cs) + 1) < fuel :=
    lt_of_le_of_lt (Nat.mul_le_mul_left 256 (Nat.succ_le_succ hlen)) hf
  obtain ⟨r, hr, hcase⟩ := autocomplete_spec h0 hrun hok p hp fuel hfuel
  rw [ret_on_alloc hr alloc]
  rcases hcase with ⟨h1, _⟩ | ⟨h1, h2⟩
  · rw [hall r h1]
  · rw [h1, h2 hnul w hmem hpw]

/-! ## Frequencies -/

theorem Records_entry_at {ws : List CString} {n : ptrie_node} (hn : Records ws [] n)
    {q : CString} (hq : q ≠ []) :
    (∀ e, entry_at n q = some e →
      e.counter = (ws.count q : Int) ∧ (0 < ws.count q → e.word = some q)) ∧
    (0 < ws.count q → ∃ e, entry_at n q = some e) := by
  obtain ⟨h1, h2, _⟩ := hn q hq
  simp only [List.nil_append] at h1 h2
  constructor
  · intro e he
    simp only [obs, he, Option.getD_some] at h1 h2
    exact ⟨h1, fun hpos => by rw [h2, if_pos hpos]⟩
  · intro hpos
    cases he : entry_at n q with
    | some e => exact ⟨e, rfl⟩
    | none =>
      simp only [obs, he, Option.getD_none, zero_entry] at h1
      have : (0 : Int) < (ws.count q : Int) := by exact_mod_cast hpos
      omega

/-- C7: after any sequence of successful `ptrie_add` calls on a fresh store,
for every non-empty string `w` the entry reached by following the characters
of `w` from the root has a counter equal to the number of additions of `w`
and, when that number is positive, exists and holds the word `w`; one more
successful `ptrie_add` of `w` makes the counter exactly one greater. -/
theorem add_counts_additions {al0 : List Bool} {pt0 pt : ptrie}
    {cs : List add_call} {rets : List Int} (h0 : ptrie_allocate al0 = some pt0)
    (hrun : ptrie_add_calls pt0 cs = some (pt, rets)) (hok : ∀ r ∈ rets, r = 0)
    (w : CString) (hw : w ≠ []) :
    (∀ e, entry_at pt.root w = some e →
      e.counter = ((call_strs cs).count w : Int) ∧
      (0 < (call_strs cs).count w → e.word = some w)) ∧
    (0 < (call_strs cs).count w → ∃ e, entry_at pt.root w = some e) ∧
    (∀ (alloc : List Bool) (pt' : ptrie), ptrie_add pt w alloc = some (0, pt') →
      ∃ e', entry_at pt'.root w = some e' ∧
        e'.counter = ((call_strs cs).count w : Int) + 1 ∧ e'.word = some w) := by
  have hn := Records_run h0 hrun hok
  refine ⟨(Records_entry_at hn hw).1, (Records_entry_at hn hw).2, ?_⟩
  intro alloc pt' hadd
  unfold ptrie_add at hadd
  simp only [Option.map_eq_some', Prod.mk.injEq, Prod.exists] at hadd
  obtain ⟨r', n', hloop, hr', hpt⟩ := hadd
  subst hr' hpt
  have hn' := Records_add hn hloop
  have hcount : (call_strs cs ++ [w]).count w = (call_strs cs).count w + 1 := by
    rw [List.count_append, List.count_singleton]
    simp
  obtain ⟨e', he'⟩ := (Records_entry_at hn' hw).2 (by omega)
  obtain ⟨g1, g2⟩ := (Records_entry_at hn' hw).1 e' he'
  refine ⟨e', he', ?_, g2 (by omega)⟩
  rw [g1, hcount]
  push_cast
  rfl

/-- C8: a call `ptrie_add(pt, w)` on any store, whether it succeeds or fails
on an allocation, leaves the entry at which any other string `v` terminates in
place, with the same stored word and the same counter. -/
theorem add_keeps_other_entries (pt pt' : ptrie) (v w : CString) (alloc : List Bool)
    (r : Int) (e : ptrie_entry ptrie_node) (hvw : v ≠ w)
    (hadd : ptrie_add pt w alloc = some (r, pt'))
    (he : entry_at pt.root v = some e) :
    ∃ e', entry_at pt'.root v = some e' ∧ e'.word = e.word ∧ e'.counter = e.counter := by
  unfold ptrie_add at hadd
  simp only [Option.map_eq_some', Prod.mk.injEq, Prod.exists] at hadd
  obtain ⟨r', n', hloop, _, hpt⟩ := hadd
  subst hpt
  exact add_loop_frame w w pt.root n' alloc r' hloop v e hvw he

/-! ## Executions that depart from the documented behaviour -/

set_option maxRecDepth 100000

/-- C1: the example of the documentation of `ptrie_autocomplete` (lines
166-172): after adding he, hey, hello, hello, helloworld, all with success,
the query "h" returns "he", added once, and not "hello", added twice. -/
theorem doc_example_returns_he :
    session [] (adds [he, hey, hello, hello, helloworld]) 2000 [104] []
      = some ([0, 0, 0, 0, 0], .ret he) := by
  decide

/-- C2: with he added once, hey twice, hello twice and helloworld once, the
query "h" returns "he" and not "hello", the smallest of the two strings that
share the greatest number of additions. -/
theorem tie_example_returns_he :
    session [] (adds [he, hey, hey, hello, hello, helloworld]) 2000 [104] []
      = some ([0, 0, 0, 0, 0, 0], .ret he) := by
  decide

/-- C5: with "b" added twice and "a" once, the empty query returns "a", not
the most added string "b". -/
theorem empty_query_returns_first_not_most_added :
    session [] (adds [[98], [98], [97]]) 2000 [] [] = some ([0, 0, 0], .ret [97]) := by
  decide

/-- C6: `ptrie_add` of the one-character string with code 1 on a fresh store
returns 0, not -1, and the string is recorded: the empty query, answered by
the empty string before the call, is answered by that string after it. -/
theorem add_accepts_control_character :
    session [] [] 2000 [] [] = some ([], .ret []) ∧
    session [] (adds [[1]]) 2000 [] [] = some ([0], .ret [1]) := by
  decide

/-- C10: when "a" was added and a second `ptrie_add` of "a" fails in `strdup`
(it returns -1), the entry of "a" is left with counter 1 and no stored word. -/
theorem failed_strdup_leaves_counter_without_word :
    (ptrie_add_calls { root := calloc_node }
        [{ str := [97], alloc := [] }, { str := [97], alloc := [false] }]).map
      (fun r => (r.2, word_counter_at r.1 [97])) = some ([0, -1], some (none, 1)) := by
  decide

/-! ## The empty string -/

/-- C19: on every store `ptrie_add(pt, "")` returns 0 and leaves the store as
it was, whatever the allocator would answer: no entry gains a word, a count
or a child. -/
theorem add_empty_string_is_noop (pt : ptrie) (alloc : List Bool) :
    ptrie_add pt [] alloc = some (0, pt) := by
  simp [ptrie_add, ptrie_add_loop]

/-! ## Added strings are found -/

theorem entry_at_range : ∀ (q : CString) (n : ptrie_node) (e : ptrie_entry ptrie_node),
    entry_at n q = some e → ∀ c ∈ q, 0 ≤ c ∧ c < 256 := by
  intro q
  induction q with
  | nil =>
    intro n e h
    simp [entry_at] at h
  | cons d q ih =>
    intro n e h c hc
    cases hd : slot d with
    | none => simp [entry_at, hd] at h
    | some k =>
      rcases List.mem_cons.mp hc with hc | hc
      · subst hc
        have := slot_eq_some hd
        omega
      · have hq : q ≠ [] := List.ne_nil_of_mem hc
        simp only [entry_at, hd, hq, if_false] at h
        cases hm : (n.entries k).next with
        | none => simp [hm] at h
        | some m =>
          simp only [hm] at h
          exact ih m e h c hc

/-- Every string recorded by a trie has its characters within the table. -/
theorem Records_range {ws : List CString} {n : ptrie_node} (hn : Records ws [] n)
    {w : CString} (hw : w ∈ ws) : ∀ c ∈ w, 0 ≤ c ∧ c < 256 := by
  intro c hc
  have hne : w ≠ [] := List.ne_nil_of_mem hc
  obtain ⟨e, he⟩ := (Records_entry_at hn hne).2 (List.count_pos_iff.mpr hw)
  exact entry_at_range w n e he c hc

/-- A non-empty query that was itself added is returned by the first loop. -/
theorem loop_exact (ws : List CString) (str : CString) (fuel : Nat) :
    ∀ (s p : CString) (n : ptrie_node), Records ws p n → p ++ s = str → s ≠ [] →
      (∀ c ∈ s, 0 ≤ c ∧ c < 256) → str ∈ ws →
      ptrie_autocomplete_loop fuel str [] s n = .ret str := by
  intro s
  induction s with
  | nil =>
    intro p n _ _ hs
    exact absurd rfl hs
  | cons c rest ih =>
    intro p n hn hps hs hrange hmem
    have hc := hrange c (by simp)
    obtain ⟨k, hk⟩ := Option.isSome_iff_exists.mp ((slot_isSome_iff c).mpr hc)
    obtain ⟨e1, e2, e3⟩ := Records_entry hn hk
    have hpre : p ++ [c] <+: str := ⟨rest, by rw [← hps]; simp⟩
    unfold ptrie_autocomplete_loop
    simp only [hk]
    split
    · rename_i w' hw'
      have hstr : str = p ++ [c] := by rw [← hps]
      have hpos : 0 < ws.count (p ++ [c]) := by
        rw [← hstr]
        exact List.count_pos_iff.mpr hmem
      rw [e2, if_pos hpos] at hw'
      simp only [Option.some.injEq] at hw'
      rw [← hw', ← hstr]
      rfl
    · rename_i rest _ _ hcatch
      have hrest : rest ≠ [] := by
        intro hrest
        have hstr : str = p ++ [c] := by rw [← hps, hrest]
        have hpos : 0 < ws.count (p ++ [c]) := by
          rw [← hstr]
          exact List.count_pos_iff.mpr hmem
        exact hcatch (p ++ [c]) (by rw [e2, if_pos hpos]) hrest
      have hsome : (n.entries k).next.isSome := e3.mpr ⟨str, hmem, hpre⟩
      cases hnext : (n.entries k).next with
      | none =>
        exact absurd hsome (by simp [hnext])
      | some m =>
        simp only
        exact ih (p ++ [c]) m (Records_child hn hk hnext) (by rw [← hps]; simp) hrest
          (fun c' hc' => hrange c' (List.mem_cons_of_mem _ hc')) hmem

/-- C15 (amended): after successful `ptrie_add` calls of C strings on a fresh
store, when a non-empty added string starts with the query `p`, the call
returns (given enough fuel) the result of `strdup(r)` for an added string `r`
that starts with `p`, a copy of `r` when the allocation succeeds and `NULL`
when it fails; `r` is either the non-empty query itself, which was added (the
return at line 198), or a string strictly longer than the query, so it is
never the query handed to `strdup` at line 225 when the second loop runs out
of slots. -/
theorem autocomplete_finds_added_string {al0 : List Bool} {pt0 pt : ptrie}
    {cs : List add_call} {rets : List Int} (h0 : ptrie_allocate al0 = some pt0)
    (hrun : ptrie_add_calls pt0 cs = some (pt, rets)) (hok : ∀ r ∈ rets, r = 0)
    (hnul : no_nul (call_strs cs))
    (p w : CString) (hw : w ∈ call_strs cs) (hne : w ≠ []) (hpw : p <+: w)
    (fuel : Nat) (hf : 256 * (max_len (call_strs cs) + 1) < fuel) (alloc : List Bool) :
    ∃ r, ptrie_autocomplete fuel pt p alloc = strdup_result alloc r ∧
      r ∈ call_strs cs ∧ p <+: r ∧
      ((p ≠ [] ∧ p ∈ call_strs cs ∧ r = p) ∨ p.length < r.length) := by
  have hn := Records_run h0 hrun hok
  have hp : ∀ c ∈ p, 0 ≤ c ∧ c < 256 :=
    fun c hc => Records_range hn hw c (hpw.subset hc)
  suffices key : ∃ r, ptrie_autocomplete fuel pt p [] = .ret r ∧ r ∈ call_strs cs ∧
      p <+: r ∧ ((p ≠ [] ∧ p ∈ call_strs cs ∧ r = p) ∨ p.length < r.length) by
    obtain ⟨r, hr, hrest⟩ := key
    exact ⟨r, ret_on_alloc hr alloc, hrest⟩
  have hscan : ∀ m, Records (call_strs cs) p m → (p = [] ∨ p ∉ call_strs cs) →
      ∃ r, ptrie_autocomplete_scan p [] fuel m 0 = .ret r ∧ r ∈ call_strs cs ∧ p <+: r ∧
        ((p ≠ [] ∧ p ∈ call_strs cs ∧ r = p) ∨ p.length < r.length) := by
    intro m hm hpcase
    obtain ⟨r, hr, hcase⟩ := scan_spec (call_strs cs) p (max_len (call_strs cs))
      (fun v hv => le_max_len hv) fuel (max_len (call_strs cs)) p m hm (by omega)
      256 0 rfl (by omega)
    refine ⟨r, hr, ?_⟩
    rcases hcase with ⟨h1, h2, h3⟩ | ⟨_, h2⟩
    · exact ⟨h1, h2, Or.inr h3⟩
    · exfalso
      have hwp : w = p := unused_no_extension hm (h2 hnul) w hw hpw
      rcases hpcase with hp0 | hpn
      · exact hne (by rw [hwp, hp0])
      · exact hpn (by rw [← hwp]; exact hw)
  unfold ptrie_autocomplete
  by_cases hp0 : p = []
  · subst hp0
    simp only [ptrie_autocomplete_loop]
    exact hscan pt.root hn (Or.inl rfl)
  · by_cases hmem : p ∈ call_strs cs
    · refine ⟨p, loop_exact (call_strs cs) p fuel p [] pt.root hn rfl hp0 hp hmem, hmem,
        List.prefix_refl p, Or.inl ⟨hp0, hmem, rfl⟩⟩
    · rcases loop_cases (call_strs cs) p fuel p [] pt.root hn rfl hp with
        ⟨_, hin | hnone⟩ | ⟨m, hm, heq, _⟩
      · exact absurd hin hmem
      · exact absurd ⟨w, hw, hpw⟩ hnone
      · rw [heq]
        exact hscan m hm (Or.inr hmem)

/-! ## More executions that depart from the claims -/

/-- C13: with "he" added once and "hello" twice, the query "he" returns "he":
the first loop returns the word of the entry the query ends at (line 198)
before any longer string is looked at. -/
theorem exact_match_wins_over_more_added :
    session [] (adds [he, hello, hello]) 2000 he [] = some ([0, 0, 0], .ret he) := by
  decide

/-- C16 (as stated, refuted): after the single addition of "a" to a fresh
store the entry of "a", its last character, has a child. -/
theorem last_character_gets_child :
    (ptrie_add_calls { root := calloc_node } (adds [[97]])).map
      (fun r => (r.2, has_child_at r.1 [97])) = some ([0], some true) := by
  decide

theorem Records_at_path {ws : List CString} :
    ∀ (q p : CString) (n m : ptrie_node) (e : ptrie_entry ptrie_node),
      Records ws p n → entry_at n q = some e → e.next = some m → Records ws (p ++ q) m := by
  intro q
  induction q with
  | nil =>
    intro p n m e _ he
    simp [entry_at] at he
  | cons c q ih =>
    intro p n m e hn he hm
    cases hk : slot c with
    | none => simp [entry_at, hk] at he
    | some k =>
      by_cases hq : q = []
      · subst hq
        simp only [entry_at, hk, if_true, Option.some.injEq] at he
        subst he
        exact Records_child hn hk hm
      · simp only [entry_at, hk, hq, if_false] at he
        cases hm1 : (n.entries k).next with
        | none => simp [hm1] at he
        | some m1 =>
          simp only [hm1] at he
          have := ih (p ++ [c]) m1 m e (Records_child hn hk hm1) he hm
          simpa [List.append_assoc] using this

/-- A node below which no added string continues is as `calloc` made it. -/
theorem Records_leaf {ws : List CString} {w : CString} {m : ptrie_node}
    (hm : Records ws w m) (hnone : ∀ v ∈ ws, w <+: v → v = w) : m = calloc_node := by
  have hentry : ∀ k : Fin 256, m.entries k = zero_entry := by
    intro k
    obtain ⟨e1, e2, e3⟩ := Records_entry hm (slot_of_fin k)
    have hnot : ¬ ∃ v ∈ ws, w ++ [(k.val : Int)] <+: v := by
      rintro ⟨v, hv, hpre⟩
      have hvw := hnone v hv ((List.prefix_append w _).trans hpre)
      have hlen := hpre.length_le
      rw [hvw] at hlen
      simp at hlen
    have hcount : ws.count (w ++ [(k.val : Int)]) = 0 := by
      rw [List.count_eq_zero]
      intro hmem
      exact hnot ⟨_, hmem, List.prefix_refl _⟩
    rw [hcount] at e1 e2
    have hnext : (m.entries k).next = none := by
      cases h : (m.entries k).next with
      | none => rfl
      | some x => exact absurd (e3.mp (by simp [h])) hnot
    cases he : m.entries k with
    | mk word next counter =>
      rw [he] at e1 e2 hnext
      simp only [Nat.lt_irrefl, if_false, Nat.cast_zero] at e1 e2
      simp only at hnext
      rw [e1, e2, hnext]
      rfl
  cases m with
  | mk f =>
    unfold calloc_node
    congr
    funext k
    exact hentry k

/-- C16 (amended): after successful `ptrie_add` calls on a fresh store, an
entry has a child exactly when an added string runs through it, whether the
string ends at that character or continues past it; in particular the entry
of the last character of every non-empty added string exists and has a
child, and after the addition of a single word `w`, once or several times,
the child of the entry of the last character of `w` is an empty node, as
`calloc` made it. -/
theorem child_iff_added_string_through {al0 : List Bool} {pt0 pt : ptrie}
    {cs : List add_call} {rets : List Int} (h0 : ptrie_allocate al0 = some pt0)
    (hrun : ptrie_add_calls pt0 cs = some (pt, rets)) (hok : ∀ r ∈ rets, r = 0) :
    (∀ (q : CString) (e : ptrie_entry ptrie_node), entry_at pt.root q = some e →
      (e.next.isSome ↔ ∃ w ∈ call_strs cs, q <+: w)) ∧
    (∀ w ∈ call_strs cs, w ≠ [] →
      ∃ e, entry_at pt.root w = some e ∧ e.next.isSome) ∧
    (∀ w ∈ call_strs cs, w ≠ [] → (∀ v ∈ call_strs cs, v = w) →
      ∃ e, entry_at pt.root w = some e ∧ e.next = some calloc_node) := by
  have hn := Records_run h0 hrun hok
  have hchild : ∀ w ∈ call_strs cs, w ≠ [] →
      ∃ e, entry_at pt.root w = some e ∧ e.next.isSome := by
    intro w hw hne
    obtain ⟨e, he⟩ := (Records_entry_at hn hne).2 (List.count_pos_iff.mpr hw)
    refine ⟨e, he, ?_⟩
    have := (hn w hne).2.2
    simp only [obs, he, Option.getD_some, List.nil_append] at this
    exact this.mpr ⟨w, hw, List.prefix_refl w⟩
  refine ⟨?_, hchild, ?_⟩
  · intro q e he
    have hq : q ≠ [] := by
      rintro rfl
      simp [entry_at] at he
    have := (hn q hq).2.2
    simpa [obs, he] using this
  · intro w hw hne hall
    obtain ⟨e, he, hsome⟩ := hchild w hw hne
    obtain ⟨m, hm⟩ := Option.isSome_iff_exists.mp hsome
    have hrec := Records_at_path w [] pt.root m e hn he hm
    rw [List.nil_append] at hrec
    refine ⟨e, he, ?_⟩
    rw [hm, Records_leaf hrec (fun v hv _ => hall v hv)]

/-- The slot of a byte: its value where `char` is unsigned and for the bytes
below 128; none for the bytes from 128 on where `char` is signed. -/
theorem slot_char_to_int (b : Nat) (hb : b < 256) :
    slot (char_to_int false b) = some ⟨b, hb⟩ ∧
    (b < 128 → slot (char_to_int true b) = some ⟨b, hb⟩) ∧
    (128 ≤ b → slot (char_to_int true b) = none) := by
  have h0 : slot (b : Int) = some ⟨b, hb⟩ := slot_of_fin ⟨b, hb⟩
  refine ⟨?_, ?_, ?_⟩
  · simpa [char_to_int] using h0
  · intro h
    have : ¬ 128 ≤ b := by omega
    simpa [char_to_int, this] using h0
  · intro h
    have hneg : ¬ (0 ≤ (b : Int) - 256 ∧ (b : Int) - 256 < 256) := by omega
    have hval : char_to_int true b = (b : Int) - 256 := by simp [char_to_int, h]
    rw [hval]
    unfold slot
    rw [dif_neg hneg]

/-- C17: where `char` is signed, the byte 233 is the index -23: it has no slot
in the table, and both `ptrie_add` of a word holding it and a query holding it
run into an out-of-bounds access.  Where `char` is unsigned the index is the
byte's value. -/
theorem signed_char_indexes_out_of_bounds :
    char_to_int true 233 = -23 ∧
    slot (char_to_int true 233) = none ∧
    (ptrie_add { root := calloc_node } [char_to_int true 233] []).isNone = true ∧
    ptrie_autocomplete 2000 { root := calloc_node } [char_to_int true 233] [] = .undefined ∧
    slot (char_to_int false 233) = some 233 := by
  decide

/-! ## Any call of `ptrie_add`, failed ones included -/

/-- The word left in the entry of the last character by any pass of the loop
is absent or the added string. -/
theorem add_loop_cons_word {str rest : CString} {c : Int}
    {entries : Fin 256 → ptrie_entry ptrie_node} {alloc : List Bool} {r : Int}
    {n' : ptrie_node}
    (h : ptrie_add_loop str (c :: rest) (.mk entries) alloc = some (r, n')) :
    ∃ (k : Fin 256) (e' : ptrie_entry ptrie_node),
      slot c = some k ∧ n' = .mk (Function.update entries k e') ∧
      (rest = [] → e'.word = none ∨ e'.word = some str) := by
  have h0 := h
  unfold ptrie_add_loop at h
  cases hk : slot c with
  | none => simp [hk] at h
  | some k =>
    simp only [hk] at h
    by_cases hrest : rest = []
    · simp only [hrest, true_and, if_true] at h ⊢
      by_cases ha : malloc_ok alloc = false
      · simp only [ha, if_true, Option.some.injEq, Prod.mk.injEq] at h
        exact ⟨k, _, rfl, h.2.symm, fun _ => Or.inl rfl⟩
      · by_cases hc : (entries k).counter = INT_MAX
        · simp [ha, hc] at h
        · simp only [ha, hc, if_false] at h
          cases hnext : (entries k).next with
          | none =>
            simp only [hnext] at h
            by_cases ha2 : malloc_ok alloc.tail = true
            · simp [ha2] at h
              obtain ⟨r', m', _, rfl, rfl⟩ := h
              exact ⟨k, _, rfl, rfl, fun _ => Or.inr rfl⟩
            · simp [ha2] at h
              exact ⟨k, _, rfl, h.2.symm, fun _ => Or.inr rfl⟩
          | some m =>
            simp only [hnext] at h
            simp at h
            obtain ⟨r', m', _, rfl, rfl⟩ := h
            exact ⟨k, _, rfl, rfl, fun _ => Or.inr rfl⟩
    · obtain ⟨k', e', hk', hn', _, _⟩ := add_loop_cons_any h0
      exact ⟨k', e', hk.symm.trans hk', hn', fun hr => absurd hr hrest⟩

/-- Effect of any pass of the loop, failed or not, on the words and children
below the node: a word stays, or is dropped, or is the added string at its own
place; a child appears only along the added string. -/
theorem add_loop_any_obs (str : CString) :
    ∀ (w : CString) (n n' : ptrie_node) (alloc : List Bool) (r : Int),
      ptrie_add_loop str w n alloc = some (r, n') →
      ∀ q : CString, q ≠ [] →
        ((obs n' q).word = (obs n q).word ∨ (obs n' q).word = none ∨
          (q = w ∧ (obs n' q).word = some str)) ∧
        ((obs n' q).next.isSome → (obs n q).next.isSome ∨ q <+: w) := by
  intro w
  induction w with
  | nil =>
    intro n n' alloc r h q _
    simp only [ptrie_add_loop, Option.some.injEq, Prod.mk.injEq] at h
    rw [← h.2]
    exact ⟨Or.inl rfl, fun h => Or.inl h⟩
  | cons c rest ih =>
    intro n n' alloc r h q hq
    cases n with
    | mk entries =>
      obtain ⟨k, e1, hk, hn1, hsame, hnext⟩ := add_loop_cons_any h
      obtain ⟨k2, e2, hk2, hn2, hword⟩ := add_loop_cons_word h
      have hkk2 : k2 = k := by
        rw [hk] at hk2
        exact (Option.some.inj hk2).symm
      subst hkk2
      have he : e2 = e1 := by
        have h1 := congrArg ptrie_node.entries (hn2.symm.trans hn1)
        have h2 := congrFun h1 k2
        simpa using h2
      subst he
      subst hn1
      cases q with
      | nil => exact absurd rfl hq
      | cons d q' =>
        cases hd : slot d with
        | none =>
          rw [obs_single_none _ _ hd, obs_single_none _ _ hd]
          exact ⟨Or.inl rfl, fun h => Or.inl h⟩
        | some k' =>
          by_cases hkk : k' = k2
          · subst hkk
            have hdc : d = c := slot_inj hd hk
            subst hdc
            by_cases hq' : q' = []
            · subst hq'
              rw [obs_single _ _ _ hk, obs_single _ _ _ hk]
              simp only [entries_mk, Function.update_same]
              refine ⟨?_, fun _ => Or.inr ⟨rest, rfl⟩⟩
              by_cases hrest : rest = []
              · rcases hword hrest with hw | hw
                · exact Or.inr (Or.inl hw)
                · exact Or.inr (Or.inr ⟨by rw [hrest], hw⟩)
              · exact Or.inl (hsame hrest).1
            · rw [obs_cons_getD _ _ _ _ hk hq', obs_cons_getD _ _ _ _ hk hq']
              simp only [entries_mk, Function.update_same]
              rcases hnext with hnext | ⟨m', alloc', hnext, hrec⟩
              · rw [hnext]
                exact ⟨Or.inl rfl, fun h => Or.inl h⟩
              · rw [hnext, Option.getD_some]
                obtain ⟨g1, g2⟩ := ih _ m' alloc' r hrec q' hq'
                refine ⟨?_, ?_⟩
                · rcases g1 with g | g | ⟨g, g'⟩
                  · exact Or.inl g
                  · exact Or.inr (Or.inl g)
                  · exact Or.inr (Or.inr ⟨by rw [g], g'⟩)
                · intro hs
                  rcases g2 hs with g | g
                  · exact Or.inl g
                  · exact Or.inr (by simpa [List.cons_prefix_cons] using g)
          · have hsame' : obs (ptrie_node.mk (Function.update entries k2 e2)) (d :: q')
                = obs (ptrie_node.mk entries) (d :: q') := by
              by_cases hq' : q' = []
              · subst hq'
                rw [obs_single _ _ _ hd, obs_single _ _ _ hd]
                simp [Function.update_noteq hkk]
              · rw [obs_cons_getD _ _ _ _ hd hq', obs_cons_getD _ _ _ _ hd hq']
                simp [Function.update_noteq hkk]
            rw [hsame']
            exact ⟨Or.inl rfl, fun h => Or.inl h⟩

theorem Attempted_calloc : Attempted [] [] calloc_node := by
  intro q _
  rw [obs_calloc]
  simp [zero_entry]

theorem Attempted_add {ws : List CString} {w : CString} {n n' : ptrie_node}
    {alloc : List Bool} {r : Int}
    (hn : Attempted ws [] n) (h : ptrie_add_loop w w n alloc = some (r, n')) :
    Attempted (ws ++ [w]) [] n' := by
  intro q hq
  obtain ⟨h1, h2⟩ := add_loop_any_obs w w n n' alloc r h q hq
  obtain ⟨g1, g2⟩ := hn q hq
  simp only [List.nil_append] at g1 g2 ⊢
  constructor
  · intro s hs
    rcases h1 with h1 | h1 | ⟨h1, h1'⟩
    · exact g1 s (by rw [← h1]; exact hs)
    · rw [h1] at hs
      simp at hs
    · rw [h1'] at hs
      simp only [Option.some.injEq] at hs
      rw [← hs, h1]
  · intro hs
    rcases h2 hs with h2 | h2
    · obtain ⟨v, hv, hp⟩ := g2 h2
      exact ⟨v, List.mem_append_left _ hv, hp⟩
    · exact ⟨w, by simp, h2⟩

theorem Attempted_calls : ∀ (cs : List add_call) (ws : List CString) (pt pt' : ptrie)
    (rets : List Int), Attempted ws [] pt.root →
    ptrie_add_calls pt cs = some (pt', rets) →
    Attempted (ws ++ call_strs cs) [] pt'.root := by
  intro cs
  induction cs with
  | nil =>
    intro ws pt pt' rets hn h
    simp only [ptrie_add_calls, Option.some.injEq, Prod.mk.injEq] at h
    rw [← h.1]
    simpa [call_strs] using hn
  | cons c cs ih =>
    intro ws pt pt' rets hn h
    simp only [ptrie_add_calls] at h
    cases h1 : ptrie_add pt c.str c.alloc with
    | none => simp [h1] at h
    | some r1 =>
      obtain ⟨r, pt1⟩ := r1
      simp only [h1] at h
      cases h2 : ptrie_add_calls pt1 cs with
      | none => simp [h2] at h
      | some r2 =>
        obtain ⟨pt2, rs⟩ := r2
        simp only [h2, Option.some.injEq, Prod.mk.injEq] at h
        obtain ⟨rfl, rfl⟩ := h
        unfold ptrie_add at h1
        simp only [Option.map_eq_some', Prod.mk.injEq, Prod.exists] at h1
        obtain ⟨r', n', hloop, hr', hpt⟩ := h1
        subst hr' hpt
        have := ih (ws ++ [c.str]) _ _ _ (Attempted_add hn hloop) h2
        simpa [call_strs, List.append_assoc] using this

/-- After any calls on a fresh store, failed ones included, the stored words
spell their paths and the children lie along the strings of the calls. -/
theorem Attempted_run {al0 : List Bool} {pt0 pt : ptrie} {cs : List add_call}
    {rets : List Int} (h0 : ptrie_allocate al0 = some pt0)
    (hrun : ptrie_add_calls pt0 cs = some (pt, rets)) :
    Attempted (call_strs cs) [] pt.root := by
  have hn : Attempted [] [] pt0.root := by
    rw [ptrie_allocate_root h0]
    exact Attempted_calloc
  simpa using Attempted_calls cs [] pt0 pt rets hn hrun

theorem Attempted_child {ws : List CString} {p : CString} {n m : ptrie_node} {c : Int}
    {k : Fin 256} (hn : Attempted ws p n) (hk : slot c = some k)
    (hm : (n.entries k).next = some m) : Attempted ws (p ++ [c]) m := by
  intro q hq
  have := hn (c :: q) (by simp)
  rw [obs_cons_some _ _ _ _ _ hk hq hm] at this
  simpa [List.append_assoc] using this

theorem entry_on_path_eq : ∀ (ks : List (Fin 256)) (n : ptrie_node),
    entry_on_path n ks = entry_at n (spelled ks) := by
  intro ks
  induction ks with
  | nil =>
    intro n
    rfl
  | cons k ks ih =>
    intro n
    have hmap : (spelled ks = []) ↔ ks = [] := by simp [spelled]
    by_cases hks : ks = []
    · subst hks
      simp [entry_on_path, entry_at, spelled, slot_of_fin]
    · have hs : spelled ks ≠ [] := fun h => hks (hmap.mp h)
      have hcons : spelled (k :: ks) = (k.val : Int) :: spelled ks := rfl
      rw [hcons]
      simp only [entry_on_path, entry_at, slot_of_fin, hks, hs, if_false]
      cases (n.entries k).next with
      | none => rfl
      | some m => exact ih m

/-- C11: in every store reached from `ptrie_allocate` by any sequence of
`ptrie_add` calls, failed ones included, every entry that has a stored word
holds exactly the string spelled by the slot indices on the path from the
root to that entry. -/
theorem stored_word_spells_path {al0 : List Bool} {pt0 pt : ptrie} {cs : List add_call}
    {rets : List Int} (h0 : ptrie_allocate al0 = some pt0)
    (hrun : ptrie_add_calls pt0 cs = some (pt, rets))
    (ks : List (Fin 256)) (e : ptrie_entry ptrie_node) (s : CString)
    (he : entry_on_path pt.root ks = some e) (hs : e.word = some s) :
    s = spelled ks := by
  have hn := Attempted_run h0 hrun
  rw [entry_on_path_eq] at he
  have hq : spelled ks ≠ [] := by
    intro h
    rw [h] at he
    simp [entry_at] at he
  have := (hn (spelled ks) hq).1 s
  simp only [obs, he, Option.getD_some, List.nil_append] at this
  exact this hs

/-! ## Termination of `ptrie_autocomplete` -/

theorem Attempted_entry {ws : List CString} {p : CString} {n : ptrie_node} {c : Int}
    {k : Fin 256} (hn : Attempted ws p n) (hk : slot c = some k) :
    (n.entries k).next.isSome → ∃ w ∈ ws, (p ++ [c]) <+: w := by
  have := (hn [c] (by simp)).2
  rwa [obs_single _ _ _ hk] at this

/-- The second loop below a node at depth `|p|` of a trie whose children lie
along strings no longer than `L` ends within 256 iterations for each of the
`L - |p|` levels below and descends at most that many times. -/
theorem scan_terminates (ws : List CString) (str : CString) (alloc : List Bool) (L : Nat)
    (hL : ∀ w ∈ ws, w.length ≤ L) :
    ∀ (fuel d : Nat) (p : CString) (n : ptrie_node), Attempted ws p n →
      L ≤ p.length + d → ∀ (i j : Nat), i + j = 256 → 256 * d + i < fuel →
        ptrie_autocomplete_scan str alloc fuel n j ≠ .out_of_fuel ∧
        ptrie_autocomplete_scan_descents fuel n j ≤ d := by
  intro fuel
  induction fuel with
  | zero =>
    intro d p n _ _ i j _ hf
    omega
  | succ f ih =>
    intro d p n hn hd i j hij hf
    unfold ptrie_autocomplete_scan ptrie_autocomplete_scan_descents
    by_cases hj : j < 256
    · simp only [hj, dite_true]
      have hk := slot_of_fin ⟨j, hj⟩
      by_cases hc : (n.entries ⟨j, hj⟩).counter > 0
      · simp only [hc, if_true]
        refine ⟨?_, Nat.zero_le _⟩
        cases (n.entries ⟨j, hj⟩).word <;> simp [strdup_result_ne_out_of_fuel]
      · simp only [hc, if_false]
        cases hnext : (n.entries ⟨j, hj⟩).next with
        | some m =>
          simp only
          obtain ⟨w, hw, hpw⟩ := Attempted_entry hn hk (by simp [hnext])
          have hlen : p.length + 1 ≤ w.length := by
            have := hpw.length_le
            simpa using this
          have hwL := hL w hw
          obtain ⟨g1, g2⟩ := ih (d - 1) (p ++ [(j : Int)]) m (Attempted_child hn hk hnext)
            (by simp only [List.length_append, List.length_singleton]; omega)
            255 1 (by norm_num) (by omega)
          have g2' : ptrie_autocomplete_scan_descents f m (0 + 1) ≤ d - 1 := g2
          exact ⟨g1, by omega⟩
        | none =>
          simp only
          exact ih d p n hn hd (i - 1) (j + 1) (by omega) (by omega)
    · simp only [hj, dite_false]
      exact ⟨strdup_result_ne_out_of_fuel alloc str, Nat.zero_le _⟩

/-- The first loop ends with its string; the second one is then covered by
`scan_terminates`. -/
theorem loop_terminates (ws : List CString) (str : CString) (alloc : List Bool) (L : Nat)
    (hL : ∀ w ∈ ws, w.length ≤ L) (fuel : Nat) (hf : 256 * (L + 1) < fuel) :
    ∀ (s p : CString) (n : ptrie_node), Attempted ws p n →
      ptrie_autocomplete_loop fuel str alloc s n ≠ .out_of_fuel ∧
      ptrie_autocomplete_loop_descents fuel s n ≤ L := by
  intro s
  induction s with
  | nil =>
    intro p n hn
    simp only [ptrie_autocomplete_loop, ptrie_autocomplete_loop_descents]
    exact scan_terminates ws str alloc L hL fuel L p n hn (by omega) 256 0 rfl (by omega)
  | cons c rest ih =>
    intro p n hn
    unfold ptrie_autocomplete_loop ptrie_autocomplete_loop_descents
    cases hk : slot c with
    | none => simp [strdup_result_ne_out_of_fuel]
    | some k =>
      simp only
      have hnext : ∀ m, (n.entries k).next = some m →
          ptrie_autocomplete_loop fuel str alloc rest m ≠ .out_of_fuel ∧
          ptrie_autocomplete_loop_descents fuel rest m ≤ L :=
        fun m hm => ih (p ++ [c]) m (Attempted_child hn hk hm)
      cases hw : (n.entries k).word with
      | none =>
        cases hm : (n.entries k).next with
        | none => simp [strdup_result_ne_out_of_fuel]
        | some m => simpa using hnext m hm
      | some w =>
        cases rest with
        | nil => simp [strdup_result_ne_out_of_fuel]
        | cons c' rest' =>
          cases hm : (n.entries k).next with
          | none => simp [strdup_result_ne_out_of_fuel]
          | some m => simpa using hnext m hm

/-- C20: on every store reached from `ptrie_allocate` by `ptrie_add` calls,
failed ones included, `ptrie_autocomplete` terminates for every query: with
fuel for 256 iterations on each of the levels of the trie (one more than the
longest string of the calls) the call does not run out of fuel, and its
second loop descends into a child at most as many times as the trie is deep,
which is at most the length of the longest string. -/
theorem autocomplete_terminates {al0 : List Bool} {pt0 pt : ptrie} {cs : List add_call}
    {rets : List Int} (h0 : ptrie_allocate al0 = some pt0)
    (hrun : ptrie_add_calls pt0 cs = some (pt, rets))
    (p : CString) (fuel : Nat) (hf : 256 * (max_len (call_strs cs) + 1) < fuel)
    (alloc : List Bool) :
    ptrie_autocomplete fuel pt p alloc ≠ .out_of_fuel ∧
    ptrie_autocomplete_descents fuel pt p ≤ max_len (call_strs cs) := by
  have hn := Attempted_run h0 hrun
  exact loop_terminates (call_strs cs) p alloc (max_len (call_strs cs))
    (fun w hw => le_max_len hw) fuel hf p [] pt.root hn

/-! ## Queries after any calls, failed ones included -/

theorem WordsPassed_calloc : WordsPassed [] [] calloc_node := by
  intro q _ h
  rw [obs_calloc] at h
  simp [zero_entry] at h

theorem WordsPassed_add {ws : List CString} {w : CString} {n n' : ptrie_node}
    {alloc : List Bool} {r : Int}
    (hn : WordsPassed ws [] n) (h : ptrie_add_loop w w n alloc = some (r, n')) :
    WordsPassed (ws ++ [w]) [] n' := by
  intro q hq hs
  simp only [List.nil_append]
  rcases (add_loop_any_obs w w n n' alloc r h q hq).1 with h1 | h1 | ⟨h1, _⟩
  · rw [h1] at hs
    exact List.mem_append_left _ (by simpa using hn q hq hs)
  · rw [h1] at hs
    simp at hs
  · rw [h1]
    simp

theorem WordsPassed_calls : ∀ (cs : List add_call) (ws : List CString) (pt pt' : ptrie)
    (rets : List Int), WordsPassed ws [] pt.root →
    ptrie_add_calls pt cs = some (pt', rets) →
    WordsPassed (ws ++ call_strs cs) [] pt'.root := by
  intro cs
  induction cs with
  | nil =>
    intro ws pt pt' rets hn h
    simp only [ptrie_add_calls, Option.some.injEq, Prod.mk.injEq] at h
    rw [← h.1]
    simpa [call_strs] using hn
  | cons c cs ih =>
    intro ws pt pt' rets hn h
    simp only [ptrie_add_calls] at h
    cases h1 : ptrie_add pt c.str c.alloc with
    | none => simp [h1] at h
    | some r1 =>
      obtain ⟨r, pt1⟩ := r1
      simp only [h1] at h
      cases h2 : ptrie_add_calls pt1 cs with
      | none => simp [h2] at h
      | some r2 =>
        obtain ⟨pt2, rs⟩ := r2
        simp only [h2, Option.some.injEq, Prod.mk.injEq] at h
        obtain ⟨rfl, rfl⟩ := h
        unfold ptrie_add at h1
        simp only [Option.map_eq_some', Prod.mk.injEq, Prod.exists] at h1
        obtain ⟨r', n', hloop, hr', hpt⟩ := h1
        subst hr' hpt
        have := ih (ws ++ [c.str]) _ _ _ (WordsPassed_add hn hloop) h2
        simpa [call_strs, List.append_assoc] using this

/-- After any calls on a fresh store, failed ones included, a word is stored
only where a string of the calls ends. -/
theorem WordsPassed_run {al0 : List Bool} {pt0 pt : ptrie} {cs : List add_call}
    {rets : List Int} (h0 : ptrie_allocate al0 = some pt0)
    (hrun : ptrie_add_calls pt0 cs = some (pt, rets)) :
    WordsPassed (call_strs cs) [] pt.root := by
  have hn : WordsPassed [] [] pt0.root := by
    rw [ptrie_allocate_root h0]
    exact WordsPassed_calloc
  simpa using WordsPassed_calls cs [] pt0 pt rets hn hrun

theorem WordsPassed_child {ws : List CString} {p : CString} {n m : ptrie_node} {c : Int}
    {k : Fin 256} (hn : WordsPassed ws p n) (hk : slot c = some k)
    (hm : (n.entries k).next = some m) : WordsPassed ws (p ++ [c]) m := by
  intro q hq hs
  have := hn (c :: q) (by simp)
  rw [obs_cons_some _ _ _ _ _ hk hq hm] at this
  simpa [List.append_assoc] using this hs

/-- The word of an entry, after any calls: the string of its path, which was
passed to a call. -/
theorem passed_entry_word {ws : List CString} {p : CString} {n : ptrie_node} {c : Int}
    {k : Fin 256} (ha : Attempted ws p n) (hw : WordsPassed ws p n)
    (hk : slot c = some k) {w : CString} (h : (n.entries k).word = some w) :
    w = p ++ [c] ∧ p ++ [c] ∈ ws := by
  have h1 := (ha [c] (by simp)).1 w
  have h2 := hw [c] (by simp)
  rw [obs_single _ _ _ hk] at h1 h2
  exact ⟨h1 h, h2 (by simp [h])⟩

/-- A node none of whose slots from `j` on is in use sends the second loop to
its last line. -/
theorem scan_unused (str : CString) :
    ∀ (fuel : Nat) (n : ptrie_node) (j : Nat), unused_from n j → j ≤ 256 →
      256 < fuel + j → ptrie_autocomplete_scan str [] fuel n j = .ret str := by
  intro fuel
  induction fuel with
  | zero =>
    intro n j _ hj hf
    omega
  | succ f ih =>
    intro n j hun _ hf
    unfold ptrie_autocomplete_scan
    by_cases hj : j < 256
    · simp only [hj, dite_true]
      obtain ⟨h1, h2⟩ := hun ⟨j, hj⟩ (le_refl _)
      have hc : ¬ (n.entries ⟨j, hj⟩).counter > 0 := by omega
      simp only [hc, if_false, h2]
      exact ih n (j + 1) (fun k hk => hun k (by omega)) (by omega) (by omega)
    · simp only [hj, dite_false, strdup_result_nil]

/-- After any calls, a non-empty query that no string of the calls starts with
leaves the first loop by one of its `return strdup(str)`. -/
theorem loop_no_match (ws : List CString) (str : CString) (fuel : Nat)
    (hno : ∀ w ∈ ws, ¬ str <+: w) :
    ∀ (s p : CString) (n : ptrie_node), Attempted ws p n → WordsPassed ws p n →
      p ++ s = str → s ≠ [] → (∀ c ∈ s, 0 ≤ c ∧ c < 256) →
      ptrie_autocomplete_loop fuel str [] s n = .ret str := by
  intro s
  induction s with
  | nil =>
    intro p n _ _ _ hs
    exact absurd rfl hs
  | cons c rest ih =>
    intro p n ha hw hps _ hrange
    obtain ⟨k, hk⟩ := Option.isSome_iff_exists.mp
      ((slot_isSome_iff c).mpr (hrange c (by simp)))
    have hpre : p ++ [c] <+: str := ⟨rest, by rw [← hps]; simp⟩
    have hnone : rest = [] → (n.entries k).word = none := by
      intro hrest
      cases hword : (n.entries k).word with
      | none => rfl
      | some w =>
        exfalso
        have hmem := (passed_entry_word ha hw hk hword).2
        have hstr : str = p ++ [c] := by rw [← hps, hrest]
        exact hno (p ++ [c]) hmem (by rw [hstr])
    have hnext : ∀ m, (n.entries k).next = some m → rest ≠ [] := by
      intro m hm hrest
      obtain ⟨w, hwm, hpw⟩ := Attempted_entry ha hk (by simp [hm])
      have hstr : str = p ++ [c] := by rw [← hps, hrest]
      exact hno w hwm (by rw [hstr]; exact hpw)
    unfold ptrie_autocomplete_loop
    simp only [hk]
    cases rest with
    | nil =>
      rw [hnone rfl]
      cases hm : (n.entries k).next with
      | none => rfl
      | some m => exact absurd rfl (hnext m hm)
    | cons c' rest' =>
      cases hm : (n.entries k).next with
      | none =>
        cases (n.entries k).word <;> rfl
      | some m =>
        have := ih (p ++ [c]) m (Attempted_child ha hk hm) (WordsPassed_child hw hk hm)
          (by rw [← hps]; simp) (by simp)
          (fun c'' hc'' => hrange c'' (List.mem_cons_of_mem _ hc''))
        cases (n.entries k).word <;> exact this

/-- C3 (amended): after any sequence of `ptrie_add` calls on a fresh store,
failed ones included, a query `p` that no string passed to any of the calls
starts with is answered by the result of `strdup(p)`: a copy of `p` when the
allocation of the copy succeeds, `NULL` when it fails; whatever the fuel
above the 256 slots of one node. -/
theorem autocomplete_no_match_returns_query {al0 : List Bool} {pt0 pt : ptrie}
    {cs : List add_call} {rets : List Int} (h0 : ptrie_allocate al0 = some pt0)
    (hrun : ptrie_add_calls pt0 cs = some (pt, rets))
    (p : CString) (hp : ∀ c ∈ p, 0 ≤ c ∧ c < 256)
    (hno : ∀ w ∈ call_strs cs, ¬ p <+: w)
    (fuel : Nat) (hf : 256 < fuel) (alloc : List Bool) :
    ptrie_autocomplete fuel pt p alloc = strdup_result alloc p := by
  apply ret_on_alloc
  unfold ptrie_autocomplete
  by_cases hp0 : p = []
  · subst hp0
    have hcs : cs = [] := by
      cases cs with
      | nil => rfl
      | cons c cs =>
        exact absurd List.nil_prefix (hno c.str (by simp [call_strs]))
    subst hcs
    simp only [ptrie_add_calls, Option.some.injEq, Prod.mk.injEq] at hrun
    rw [← hrun.1, ptrie_allocate_root h0]
    simp only [ptrie_autocomplete_loop]
    refine scan_unused [] fuel calloc_node 0 (fun k _ => ?_) (by omega) (by omega)
    exact ⟨le_refl _, rfl⟩
  · exact loop_no_match (call_strs cs) p fuel hno p [] pt.root (Attempted_run h0 hrun)
      (WordsPassed_run h0 hrun) rfl hp0 hp

theorem Records_first_char {ws : List CString} {p : CString} {n : ptrie_node} {c : Int}
    {t : CString} (hn : Records ws p n) (hmem : p ++ c :: t ∈ ws) :
    ∃ k, slot c = some k ∧ (n.entries k).next.isSome := by
  have hsome : (obs n [c]).next.isSome :=
    (hn [c] (by simp)).2.2.mpr ⟨p ++ c :: t, hmem, ⟨t, by simp⟩⟩
  cases hk : slot c with
  | none =>
    rw [obs_single_none _ _ hk] at hsome
    simp [zero_entry] at hsome
  | some k =>
    rw [obs_single _ _ _ hk] at hsome
    exact ⟨k, rfl, hsome⟩

theorem prefix_eq_or_lex {p w : CString} (h : p <+: w) :
    p = w ∨ List.Lex (· < ·) p w := by
  obtain ⟨t, rfl⟩ := h
  cases t with
  | nil => exact Or.inl (by simp)
  | cons c t =>
    right
    have := List.Lex.append_left (· < ·) (List.Lex.nil : List.Lex (· < ·) [] (c :: t)) p
    simpa using this

/-- What the second loop returns below a node of a trie of successful
additions of C strings: the fallback, and then no slot from `j` on is in use,
or an added string which is the smallest, in the lexicographic order of the
character values, of the added strings that leave the node by a slot from `j`
on. -/
theorem scan_min (ws : List CString) (str : CString) (hwf : no_nul ws) :
    ∀ (fuel : Nat) (p : CString) (n : ptrie_node) (j : Nat) (r : CString),
      Records ws p n → ptrie_autocomplete_scan str [] fuel n j = .ret r →
      (r ∈ ws ∧ ∃ r', r = p ++ r' ∧ r' ≠ [] ∧
          ∀ (c : Int) (t : CString), p ++ c :: t ∈ ws → (j : Int) ≤ c →
            (r' = c :: t ∨ List.Lex (· < ·) r' (c :: t))) ∨
      (r = str ∧ unused_from n j) := by
  intro fuel
  induction fuel with
  | zero =>
    intro p n j r _ h
    simp [ptrie_autocomplete_scan] at h
  | succ f ih =>
    intro p n j r hn h
    unfold ptrie_autocomplete_scan at h
    by_cases hj : j < 256
    · simp only [hj, dite_true] at h
      have hk := slot_of_fin ⟨j, hj⟩
      obtain ⟨e1, e2, e3⟩ := Records_entry hn hk
      by_cases hc : (n.entries ⟨j, hj⟩).counter > 0
      · simp only [hc, if_true] at h
        have hpos : 0 < ws.count (p ++ [(j : Int)]) := by
          rw [e1] at hc
          exact_mod_cast hc
        rw [e2, if_pos hpos] at h
        simp only [strdup_result_nil, Outcome.ret.injEq] at h
        subst h
        left
        refine ⟨List.count_pos_iff.mp hpos, [(j : Int)], rfl, by simp, ?_⟩
        intro c t _ hjc
        by_cases hcj : c = (j : Int)
        · subst hcj
          cases t with
          | nil => exact Or.inl rfl
          | cons c' t' => exact Or.inr (List.Lex.cons List.Lex.nil)
        · exact Or.inr (List.Lex.rel (by omega))
      · simp only [hc, if_false] at h
        have hcount0 : ws.count (p ++ [(j : Int)]) = 0 := by
          rw [e1] at hc
          have : ¬ (0 < ws.count (p ++ [(j : Int)])) := by
            intro h
            exact hc (by exact_mod_cast h)
          omega
        have hrange1 : ∀ (c' : Int) (t' : CString), p ++ (j : Int) :: c' :: t' ∈ ws →
            ∀ m, (n.entries ⟨j, hj⟩).next = some m →
              ∃ k, slot c' = some k ∧ 1 ≤ k.val ∧ (m.entries k).next.isSome := by
          intro c' t' hmem m hm
          have hm' := Records_child hn hk hm
          obtain ⟨k, hk', hs⟩ := Records_first_char (t := t') hm' (by simpa using hmem)
          have hc0 : c' ≠ 0 := hwf _ hmem c' (by simp)
          have := slot_eq_some hk'
          exact ⟨k, hk', by omega, hs⟩
        cases hnext : (n.entries ⟨j, hj⟩).next with
        | some m =>
          simp only [hnext] at h
          have hm := Records_child hn hk hnext
          rcases ih (p ++ [(j : Int)]) m 1 r hm h with ⟨hr, r'', hrr, _, hmin⟩ | ⟨_, hun⟩
          · left
            refine ⟨hr, (j : Int) :: r'', by simp [hrr], by simp, ?_⟩
            intro c t hmem hjc
            by_cases hcj : c = (j : Int)
            · subst hcj
              cases t with
              | nil =>
                exact absurd (List.count_pos_iff.mpr hmem) (by omega)
              | cons c' t' =>
                obtain ⟨k, hk', hk1, _⟩ := hrange1 c' t' hmem m hnext
                have hc1 : ((1 : Nat) : Int) ≤ c' := by
                  have := slot_eq_some hk'
                  omega
                rcases hmin c' t' (by simpa using hmem) hc1 with g | g
                · exact Or.inl (by rw [g])
                · exact Or.inr (List.Lex.cons g)
            · exact Or.inr (List.Lex.rel (by omega))
          · exfalso
            obtain ⟨w, hw, t, ht⟩ := e3.mp (by simp [hnext])
            cases t with
            | nil =>
              rw [List.append_nil] at ht
              rw [ht] at hcount0
              exact absurd (List.count_pos_iff.mpr hw) (by omega)
            | cons c' t' =>
              have hmem : p ++ (j : Int) :: c' :: t' ∈ ws := by
                have : p ++ (j : Int) :: c' :: t' = w := by rw [← ht]; simp
                rw [this]
                exact hw
              obtain ⟨k, _, hk1, hs⟩ := hrange1 c' t' hmem m hnext
              rw [(hun k hk1).2] at hs
              simp at hs
        | none =>
          simp only [hnext] at h
          rcases ih p n (j + 1) r hn h with ⟨hr, r', hrr, hne, hmin⟩ | ⟨hr, hun⟩
          · left
            refine ⟨hr, r', hrr, hne, ?_⟩
            intro c t hmem hjc
            by_cases hcj : c = (j : Int)
            · exfalso
              subst hcj
              have : (n.entries ⟨j, hj⟩).next.isSome :=
                e3.mpr ⟨_, hmem, ⟨t, by simp⟩⟩
              rw [hnext] at this
              simp at this
            · exact hmin c t hmem (by push_cast; omega)
          · right
            refine ⟨hr, fun k hk' => ?_⟩
            by_cases hkj : k.val = j
            · have : k = ⟨j, hj⟩ := Fin.ext hkj
              subst this
              exact ⟨not_lt.mp hc, hnext⟩
            · exact hun k (by omega)
    · simp only [hj, dite_false, strdup_result_nil, Outcome.ret.injEq] at h
      exact Or.inr ⟨h.symm, fun k hk' => absurd k.isLt (by omega)⟩

/-- C14 (amended): after `ptrie_add` calls of non-empty C strings on a fresh
store that each returned 0, when an added string starts with the query `p`,
the call returns (given enough fuel) the result of `strdup(r)`, a copy of `r`
when the allocation succeeds and `NULL` when it fails, where `r` is the added
string starting with `p` that is smallest in the lexicographic order of the
character values, however often each string was added. -/
theorem autocomplete_returns_lex_smallest {al0 : List Bool} {pt0 pt : ptrie}
    {cs : List add_call} {rets : List Int} (h0 : ptrie_allocate al0 = some pt0)
    (hrun : ptrie_add_calls pt0 cs = some (pt, rets)) (hok : ∀ r ∈ rets, r = 0)
    (hnul : no_nul (call_strs cs)) (hnonempty : ∀ v ∈ call_strs cs, v ≠ [])
    (p w : CString) (hw : w ∈ call_strs cs) (hpw : p <+: w)
    (fuel : Nat) (hf : 256 * (max_len (call_strs cs) + 1) < fuel) (alloc : List Bool) :
    ∃ r, ptrie_autocomplete fuel pt p alloc = strdup_result alloc r ∧
      r ∈ call_strs cs ∧ p <+: r ∧
      ∀ v ∈ call_strs cs, p <+: v → (r = v ∨ List.Lex (· < ·) r v) := by
  have hn := Records_run h0 hrun hok
  have hp : ∀ c ∈ p, 0 ≤ c ∧ c < 256 :=
    fun c hc => Records_range hn hw c (hpw.subset hc)
  suffices key : ∃ r, ptrie_autocomplete fuel pt p [] = .ret r ∧ r ∈ call_strs cs ∧
      p <+: r ∧ ∀ v ∈ call_strs cs, p <+: v → (r = v ∨ List.Lex (· < ·) r v) by
    obtain ⟨r, hr, hrest⟩ := key
    exact ⟨r, ret_on_alloc hr alloc, hrest⟩
  have hscan : ∀ m, Records (call_strs cs) p m → p ∉ call_strs cs →
      ∃ r, ptrie_autocomplete_scan p [] fuel m 0 = .ret r ∧ r ∈ call_strs cs ∧ p <+: r ∧
        ∀ v ∈ call_strs cs, p <+: v → (r = v ∨ List.Lex (· < ·) r v) := by
    intro m hm hpn
    obtain ⟨r, hr, _⟩ := scan_spec (call_strs cs) p (max_len (call_strs cs))
      (fun v hv => le_max_len hv) fuel (max_len (call_strs cs)) p m hm (by omega)
      256 0 rfl (by omega)
    refine ⟨r, hr, ?_⟩
    rcases scan_min (call_strs cs) p hnul fuel p m 0 r hm hr with
      ⟨h1, r', hrr, _, hmin⟩ | ⟨_, hun⟩
    · refine ⟨h1, ⟨r', hrr.symm⟩, ?_⟩
      rintro v hv ⟨t, ht⟩
      cases t with
      | nil =>
        rw [List.append_nil] at ht
        exact absurd (by rw [ht]; exact hv) hpn
      | cons c t =>
        obtain ⟨k, hk, _⟩ := Records_first_char (t := t) hm (by rw [ht]; exact hv)
        have hc0 : ((0 : Nat) : Int) ≤ c := by
          have := slot_eq_some hk
          omega
        rw [hrr, ← ht]
        rcases hmin c t (by rw [ht]; exact hv) hc0 with g | g
        · exact Or.inl (by rw [g])
        · exact Or.inr (List.Lex.append_left (· < ·) g p)
    · exfalso
      have hwp : w = p := unused_no_extension hm hun w hw hpw
      exact hpn (by rw [← hwp]; exact hw)
  unfold ptrie_autocomplete
  by_cases hmem : p ∈ call_strs cs
  · have hp0 : p ≠ [] := hnonempty p hmem
    exact ⟨p, loop_exact (call_strs cs) p fuel p [] pt.root hn rfl hp0 hp hmem, hmem,
      List.prefix_refl p, fun v _ hpv => prefix_eq_or_lex hpv⟩
  · by_cases hp0 : p = []
    · subst hp0
      simp only [ptrie_autocomplete_loop]
      exact hscan pt.root hn hmem
    · rcases loop_cases (call_strs cs) p fuel p [] pt.root hn rfl hp with
        ⟨_, hin | hnone⟩ | ⟨m, hm, heq, _⟩
      · exact absurd hin hmem
      · exact absurd ⟨w, hw, hpw⟩ hnone
      · rw [heq]
        exact hscan m hm hmem

/-! ## The order of the additions -/

/-- The node a successful pass leaves does not depend on the allocator. -/
theorem add_loop_det (str : CString) :
    ∀ (w : CString) (n x y : ptrie_node) (al1 al2 : List Bool),
      ptrie_add_loop str w n al1 = some (0, x) →
      ptrie_add_loop str w n al2 = some (0, y) → x = y := by
  intro w
  induction w with
  | nil =>
    intro n x y al1 al2 h1 h2
    simp only [ptrie_add_loop, Option.some.injEq, Prod.mk.injEq, true_and] at h1 h2
    rw [← h1, ← h2]
  | cons c rest ih =>
    intro n x y al1 al2 h1 h2
    cases n with
    | mk entries =>
      obtain ⟨k1, m1, a1, hk1, hrec1, rfl⟩ := add_loop_cons_ok h1
      obtain ⟨k2, m2, a2, hk2, hrec2, rfl⟩ := add_loop_cons_ok h2
      have hk : k2 = k1 := by
        rw [hk1] at hk2
        exact (Option.some.inj hk2).symm
      subst hk
      rw [ih _ _ _ _ _ hrec1 hrec2]

/-- Two successful passes, of `a` and of `b`, leave the same node in either
order. -/
theorem add_loop_comm :
    ∀ (a b sa sb : CString) (n n1 n12 n2 n21 : ptrie_node) (al1 al2 al3 al4 : List Bool),
      (a = b → sa = sb) →
      ptrie_add_loop sa a n al1 = some (0, n1) →
      ptrie_add_loop sb b n1 al2 = some (0, n12) →
      ptrie_add_loop sb b n al3 = some (0, n2) →
      ptrie_add_loop sa a n2 al4 = some (0, n21) → n12 = n21 := by
  intro a
  induction a with
  | nil =>
    intro b sa sb n n1 n12 n2 n21 al1 al2 al3 al4 _ h1 h2 h3 h4
    simp only [ptrie_add_loop, Option.some.injEq, Prod.mk.injEq, true_and] at h1 h4
    subst h1 h4
    exact add_loop_det sb b _ _ _ al2 al3 h2 h3
  | cons c ra ih =>
    intro b sa sb n n1 n12 n2 n21 al1 al2 al3 al4 hab h1 h2 h3 h4
    cases b with
    | nil =>
      simp only [ptrie_add_loop, Option.some.injEq, Prod.mk.injEq, true_and] at h2 h3
      subst h2 h3
      exact add_loop_det sa (c :: ra) _ _ _ al1 al4 h1 h4
    | cons d rb =>
      cases n with
      | mk entries =>
        obtain ⟨kc, ma, a1, hkc, hrec1, rfl⟩ := add_loop_cons_ok h1
        obtain ⟨kd, mb', a2, hkd, hrec2, rfl⟩ := add_loop_cons_ok h2
        obtain ⟨kd', mb, a3, hkd', hrec3, rfl⟩ := add_loop_cons_ok h3
        obtain ⟨kc', ma', a4, hkc', hrec4, rfl⟩ := add_loop_cons_ok h4
        have e1 : kd' = kd := by
          rw [hkd] at hkd'
          exact (Option.some.inj hkd').symm
        have e2 : kc' = kc := by
          rw [hkc] at hkc'
          exact (Option.some.inj hkc').symm
        subst e1 e2
        by_cases hk : kd' = kc'
        · subst hk
          have hcd : c = d := slot_inj hkc hkd
          subst hcd
          simp only [Function.update_same, Option.getD_some] at hrec2 hrec4 ⊢
          have hrab : ra = rb → sa = sb := fun h => hab (by rw [h])
          have hm : mb' = ma' := ih rb sa sb _ ma mb' mb ma' a1 a2 a3 a4 hrab hrec1 hrec2 hrec3 hrec4
          subst hm
          rw [Function.update_idem, Function.update_idem]
          congr 2
          by_cases hra : ra = [] <;> by_cases hrb : rb = []
          · have := hrab (by rw [hra, hrb])
            simp [hra, hrb, this]
          · simp [hra, hrb]
          · simp [hra, hrb]
          · simp [hra, hrb]
        · have hk' : kc' ≠ kd' := fun h => hk h.symm
          simp only [Function.update_noteq hk, Function.update_noteq hk'] at hrec2 hrec4 ⊢
          have hmb : mb' = mb := add_loop_det sb rb _ mb' mb a2 a3 hrec2 hrec3
          have hma : ma' = ma := add_loop_det sa ra _ ma' ma a4 a1 hrec4 hrec1
          subst hmb hma
          rw [Function.update_comm hk']

theorem add_loop_last_counter {str : CString} {c : Int}
    {entries : Fin 256 → ptrie_entry ptrie_node} {alloc : List Bool} {n' : ptrie_node}
    {k : Fin 256} (h : ptrie_add_loop str [c] (.mk entries) alloc = some (0, n'))
    (hk : slot c = some k) : (entries k).counter ≠ INT_MAX := by
  intro hc
  unfold ptrie_add_loop at h
  simp only [hk, hc, true_and, and_true] at h
  by_cases ha : malloc_ok alloc = false
  · simp [ha] at h
  · simp [ha] at h

/-- A successful pass had its characters within the table and met no counter
at `INT_MAX` in the entry it incremented. -/
theorem add_loop_ok_cond (str : CString) :
    ∀ (w : CString) (n n' : ptrie_node) (alloc : List Bool),
      ptrie_add_loop str w n alloc = some (0, n') →
      (∀ c ∈ w, 0 ≤ c ∧ c < 256) ∧ (w ≠ [] → (obs n w).counter ≠ INT_MAX) := by
  intro w
  induction w with
  | nil =>
    intro n n' alloc _
    exact ⟨fun c hc => by simp at hc, fun h => absurd rfl h⟩
  | cons c rest ih =>
    intro n n' alloc h
    cases n with
    | mk entries =>
      obtain ⟨k, m', alloc', hk, hrec, _⟩ := add_loop_cons_ok h
      obtain ⟨g1, g2⟩ := ih _ _ _ hrec
      constructor
      · intro c' hc'
        rcases List.mem_cons.mp hc' with hc' | hc'
        · subst hc'
          have := slot_eq_some hk
          omega
        · exact g1 c' hc'
      · intro _
        by_cases hrest : rest = []
        · subst hrest
          rw [obs_single _ _ _ hk]
          exact add_loop_last_counter h hk
        · rw [obs_cons_getD _ _ _ _ hk hrest]
          exact g2 hrest

/-- With an allocator that never fails, the pass over a string whose
characters index the table succeeds unless the counter it increments is at
`INT_MAX`. -/
theorem add_loop_succeeds (str : CString) :
    ∀ (w : CString) (n : ptrie_node), (∀ c ∈ w, 0 ≤ c ∧ c < 256) →
      (w ≠ [] → (obs n w).counter ≠ INT_MAX) →
      ∃ n', ptrie_add_loop str w n [] = some (0, n') := by
  intro w
  induction w with
  | nil =>
    intro n _ _
    exact ⟨n, rfl⟩
  | cons c rest ih =>
    intro n hrange hmax
    cases n with
    | mk entries =>
      obtain ⟨k, hk⟩ := Option.isSome_iff_exists.mp
        ((slot_isSome_iff c).mpr (hrange c (by simp)))
      have hrest : ∀ c' ∈ rest, 0 ≤ c' ∧ c' < 256 :=
        fun c' hc' => hrange c' (List.mem_cons_of_mem _ hc')
      have hchild : rest ≠ [] →
          (obs ((entries k).next.getD calloc_node) rest).counter ≠ INT_MAX := by
        intro hq
        have := hmax (by simp)
        rwa [obs_cons_getD _ _ _ _ hk hq] at this
      obtain ⟨m', hm'⟩ := ih ((entries k).next.getD calloc_node) hrest hchild
      unfold ptrie_add_loop
      simp only [hk]
      have hok : malloc_ok [] = true := rfl
      by_cases hr : rest = []
      · have hcnt : (entries k).counter ≠ INT_MAX := by
          have := hmax (by simp)
          rwa [hr, obs_single _ _ _ hk] at this
        simp only [hr, true_and, hok, hcnt, if_true, if_false, List.tail_nil,
          Bool.true_eq_false]
        rw [hr] at hm'
        cases hnext : (entries k).next with
        | none =>
          rw [hnext] at hm'
          simp only [Option.getD_none] at hm'
          simp [hm']
        | some m =>
          rw [hnext] at hm'
          simp only [Option.getD_some] at hm'
          simp [hm']
      · simp only [hr, false_and, hok, if_true, if_false, List.tail_nil]
        cases hnext : (entries k).next with
        | none =>
          rw [hnext] at hm'
          simp only [Option.getD_none] at hm'
          simp [hm']
        | some m =>
          rw [hnext] at hm'
          simp only [Option.getD_some] at hm'
          simp [hm']

theorem ptrie_add_ok_iff {pt q : ptrie} {w : CString} {alloc : List Bool} :
    ptrie_add pt w alloc = some (0, q) ↔
      ptrie_add_loop w w pt.root alloc = some (0, q.root) := by
  unfold ptrie_add
  simp only [Option.map_eq_some', Prod.mk.injEq, Prod.exists]
  constructor
  · rintro ⟨r, n, h, hr, hq⟩
    subst hr hq
    exact h
  · intro h
    exact ⟨0, q.root, h, rfl, rfl⟩

theorem ptrie_add_det {pt x y : ptrie} {w : CString} {al1 al2 : List Bool}
    (h1 : ptrie_add pt w al1 = some (0, x)) (h2 : ptrie_add pt w al2 = some (0, y)) :
    x = y := by
  have := add_loop_det w w pt.root x.root y.root al1 al2
    (ptrie_add_ok_iff.mp h1) (ptrie_add_ok_iff.mp h2)
  cases x
  cases y
  simpa using this

/-- Two successful calls in a row can be made in the other order, with the
same store in the end. -/
theorem ptrie_add_swap {pt q1 q : ptrie} {x y : CString} {al1 al2 : List Bool}
    (hy : ptrie_add pt y al1 = some (0, q1)) (hx : ptrie_add q1 x al2 = some (0, q)) :
    ∃ al3 al4 q1', ptrie_add pt x al3 = some (0, q1') ∧ ptrie_add q1' y al4 = some (0, q) := by
  by_cases hxy : x = y
  · subst hxy
    exact ⟨al1, al2, q1, hy, hx⟩
  · have hy' := ptrie_add_ok_iff.mp hy
    have hx' := ptrie_add_ok_iff.mp hx
    obtain ⟨rx, cx⟩ := add_loop_ok_cond x x _ _ _ hx'
    obtain ⟨ry, cy⟩ := add_loop_ok_cond y y _ _ _ hy'
    have cx' : x ≠ [] → (obs pt.root x).counter ≠ INT_MAX := by
      intro hne
      have h1 := (add_loop_obs y y _ _ _ hy' x hne).1
      have h2 := cx hne
      rw [h1, if_neg hxy] at h2
      simpa using h2
    obtain ⟨n1', hn1'⟩ := add_loop_succeeds x x pt.root rx cx'
    have cy' : y ≠ [] → (obs n1' y).counter ≠ INT_MAX := by
      intro hne
      have h1 := (add_loop_obs x x _ _ _ hn1' y hne).1
      have hyx : ¬ y = x := fun h => hxy h.symm
      rw [h1, if_neg hyx]
      simpa using cy hne
    obtain ⟨n', hn'⟩ := add_loop_succeeds y y n1' ry cy'
    have heq : q.root = n' :=
      add_loop_comm y x y x pt.root q1.root q.root n1' n' al1 al2 [] []
        (fun h => absurd h.symm hxy) hy' hx' hn1' hn'
    refine ⟨[], [], { root := n1' }, ptrie_add_ok_iff.mpr hn1', ?_⟩
    exact ptrie_add_ok_iff.mpr (by rw [heq]; exact hn')

theorem Adds_of_calls : ∀ (cs : List add_call) (pt pt' : ptrie) (rets : List Int),
    ptrie_add_calls pt cs = some (pt', rets) → (∀ r ∈ rets, r = 0) →
    Adds pt (call_strs cs) pt' := by
  intro cs
  induction cs with
  | nil =>
    intro pt pt' rets h _
    simp only [ptrie_add_calls, Option.some.injEq, Prod.mk.injEq] at h
    simp [call_strs, Adds, h.1]
  | cons c cs ih =>
    intro pt pt' rets h hok
    simp only [ptrie_add_calls] at h
    cases h1 : ptrie_add pt c.str c.alloc with
    | none => simp [h1] at h
    | some r1 =>
      obtain ⟨r, pt1⟩ := r1
      simp only [h1] at h
      cases h2 : ptrie_add_calls pt1 cs with
      | none => simp [h2] at h
      | some r2 =>
        obtain ⟨pt2, rs⟩ := r2
        simp only [h2, Option.some.injEq, Prod.mk.injEq] at h
        obtain ⟨rfl, rfl⟩ := h
        have hr : r = 0 := hok r (by simp)
        subst hr
        exact ⟨c.alloc, pt1, h1, ih pt1 _ rs h2 (fun r hr => hok r (List.mem_cons_of_mem _ hr))⟩

theorem Adds_det : ∀ (ws : List CString) (pt p1 p2 : ptrie),
    Adds pt ws p1 → Adds pt ws p2 → p1 = p2 := by
  intro ws
  induction ws with
  | nil =>
    intro pt p1 p2 h1 h2
    simp only [Adds] at h1 h2
    rw [h1, h2]
  | cons w ws ih =>
    intro pt p1 p2 h1 h2
    obtain ⟨a1, q1, g1, r1⟩ := h1
    obtain ⟨a2, q2, g2, r2⟩ := h2
    have := ptrie_add_det g1 g2
    subst this
    exact ih _ _ _ r1 r2

/-- Successful additions can be made in any order, with the same store in the
end. -/
theorem Adds_perm {l1 l2 : List CString} (h : l1.Perm l2) :
    ∀ (pt p1 : ptrie), Adds pt l1 p1 → Adds pt l2 p1 := by
  induction h with
  | nil =>
    intro pt p1 h
    exact h
  | cons x _ ih =>
    intro pt p1 h
    obtain ⟨a, q, g, r⟩ := h
    exact ⟨a, q, g, ih q p1 r⟩
  | swap x y l =>
    intro pt p1 h
    obtain ⟨a1, q1, g1, a2, q, g2, r⟩ := h
    obtain ⟨a3, a4, q1', g3, g4⟩ := ptrie_add_swap g1 g2
    exact ⟨a3, q1', g3, a4, q, g4, r⟩
  | trans _ _ ih1 ih2 =>
    intro pt p1 h
    exact ih2 pt p1 (ih1 pt p1 h)

/-- C18: on every store, two sequences of successful `ptrie_add` calls whose
strings are the same up to their order (in particular `a` then `b`, and `b`
then `a`) leave the same trie, with the same stored words, counters and
children at every entry; hence every `ptrie_autocomplete` result is the same
after both. -/
theorem add_order_irrelevant (pt pt1 pt2 : ptrie) (cs1 cs2 : List add_call)
    (rets1 rets2 : List Int) (hperm : (call_strs cs1).Perm (call_strs cs2))
    (h1 : ptrie_add_calls pt cs1 = some (pt1, rets1)) (hok1 : ∀ r ∈ rets1, r = 0)
    (h2 : ptrie_add_calls pt cs2 = some (pt2, rets2)) (hok2 : ∀ r ∈ rets2, r = 0) :
    pt1 = pt2 ∧
    ∀ (fuel : Nat) (p : CString) (alloc : List Bool),
      ptrie_autocomplete fuel pt1 p alloc = ptrie_autocomplete fuel pt2 p alloc := by
  have g1 := Adds_perm hperm pt pt1 (Adds_of_calls cs1 pt pt1 rets1 h1 hok1)
  have g2 := Adds_of_calls cs2 pt pt2 rets2 h2 hok2
  have heq : pt1 = pt2 := Adds_det _ pt pt1 pt2 g1 g2
  subst heq
  exact ⟨rfl, fun _ _ _ => rfl⟩

/-! ## Heap blocks obtained and released -/

/-- C12: allocate a store, add "a" twice with success, free the store:
`ptrie_allocate` and the two calls obtain 2 + 2 + 1 = 5 heap blocks (store,
root, first copy of "a", child node, second copy of "a"), `ptrie_free`
releases 4.  The first copy, overwritten at line 127 without a `free`, is
never released. -/
theorem repeated_add_leaks_first_copy :
    ptrie_allocate [] = some { root := calloc_node } ∧
    ptrie_allocate_blocks [] + ptrie_add_calls_blocks { root := calloc_node } (adds [[97], [97]])
      = 5 ∧
    (ptrie_add_calls { root := calloc_node } (adds [[97], [97]])).map
      (fun r => (r.2, ptrie_free_frees 10 r.1)) = some ([0, 0], some 4) := by
  refine ⟨rfl, by decide, by decide⟩

/-! ## Queries that do not return what the claims say -/

/-- C3 (as stated, refuted): on a fresh store the query "xyz", which nothing
added starts with, returns `NULL` and not a string equal to "xyz" when the
allocation of the copy fails; and after the single call `ptrie_add(pt, "a")`
that returned -1 (its `calloc` failed), so that no string was added with
success, the empty query returns "a" and not the empty string. -/
theorem no_match_query_returns_null_or_failed_word :
    session [] [] 2000 xyz [false] = some ([], .null) ∧
    session [] [{ str := [97], alloc := [true, false] }] 2000 [] []
      = some ([-1], .ret [97]) := by
  decide

/-- C4 (as stated, refuted): after the single successful addition of "he" the
query "h" returns `NULL`, not "he", when the allocation of the copy fails. -/
theorem single_word_query_returns_null :
    session [] (adds [he]) 2000 [104] [false] = some ([0], .null) := by
  decide

/-- C14 (as stated, refuted): after `ptrie_add(pt, "ab")` failed in `strdup`
(the child of "a" was made) and "b" was added, the empty query runs into the
empty child of "a" and returns the empty string, which was never added,
although "b" starts with the query; and after the additions of "hey" and
"hello" the query "h" returns `NULL` when the allocation of the copy fails. -/
theorem lex_smallest_fails_after_failed_add_or_allocation :
    session [] [{ str := ab, alloc := [true, false] }, { str := [98], alloc := [] }]
      2000 [] [] = some ([-1, 0], .ret []) ∧
    session [] (adds [hey, hello]) 2000 [104] [false] = some ([0, 0], .null) := by
  decide

/-- C15 (as stated, refuted): after the successful additions of "hello" and
"hey" the query "he" returns `NULL`, not an added string, when the allocation
of the copy fails. -/
theorem found_string_query_returns_null :
    session [] (adds [hello, hey]) 2000 he [false] = some ([0, 0], .null) := by
  decide


/-! ## The theorems at concrete stores -/

theorem autocomplete_no_match_returns_query_witness :
    ptrie_allocate [] = some { root := calloc_node } ∧
    ptrie_add_calls { root := calloc_node }
        [{ str := he, alloc := [] }, { str := hey, alloc := [false] }]
      = some (store_after [{ str := he, alloc := [] }, { str := hey, alloc := [false] }],
          [0, -1]) ∧
    (∀ c ∈ xyz, 0 ≤ c ∧ c < 256) ∧
    (∀ w ∈ call_strs [{ str := he, alloc := [] }, { str := hey, alloc := [false] }],
      ¬ xyz <+: w) ∧
    256 < 257 ∧
    ptrie_autocomplete 257
        (store_after [{ str := he, alloc := [] }, { str := hey, alloc := [false] }]) xyz [false]
      = strdup_result [false] xyz :=
  ⟨rfl, rfl, by decide, by decide, by decide,
    @autocomplete_no_match_returns_query [] { root := calloc_node }
      (store_after [{ str := he, alloc := [] }, { str := hey, alloc := [false] }])
      [{ str := he, alloc := [] }, { str := hey, alloc := [false] }] [0, -1] rfl rfl
      xyz (by decide) (by decide) 257 (by decide) [false]⟩

theorem autocomplete_single_word_witness :
    ptrie_allocate [] = some { root := calloc_node } ∧
    ptrie_add_calls { root := calloc_node } (adds [he, he])
      = some (store_after (adds [he, he]), [0, 0]) ∧
    (∀ r ∈ [(0 : Int), 0], r = 0) ∧
    (∀ c ∈ he, 32 ≤ c ∧ c < 256) ∧
    1 ≤ (adds [he, he]).length ∧
    (∀ c ∈ adds [he, he], c.str = he) ∧
    [104] <+: he ∧
    256 * (he.length + 1) < 1000 ∧
    ptrie_autocomplete 1000 (store_after (adds [he, he])) [104] [true]
      = strdup_result [true] he :=
  ⟨rfl, rfl, by decide, by decide, by decide, by decide, by decide, by decide,
    @autocomplete_single_word [] { root := calloc_node } (store_after (adds [he, he]))
      (adds [he, he]) [0, 0] rfl rfl (by decide) he (by decide) (by decide) (by decide)
      [104] (by decide) 1000 (by decide) [true]⟩

theorem add_counts_additions_witness :
    ptrie_allocate [] = some { root := calloc_node } ∧
    ptrie_add_calls { root := calloc_node } (adds [he, hey, he])
      = some (store_after (adds [he, hey, he]), [0, 0, 0]) ∧
    (∀ r ∈ [(0 : Int), 0, 0], r = 0) ∧
    he ≠ [] ∧
    (∀ e, entry_at (store_after (adds [he, hey, he])).root he = some e →
      e.counter = ((call_strs (adds [he, hey, he])).count he : Int) ∧
      (0 < (call_strs (adds [he, hey, he])).count he → e.word = some he)) ∧
    (0 < (call_strs (adds [he, hey, he])).count he →
      ∃ e, entry_at (store_after (adds [he, hey, he])).root he = some e) ∧
    (∀ (alloc : List Bool) (pt' : ptrie),
      ptrie_add (store_after (adds [he, hey, he])) he alloc = some (0, pt') →
      ∃ e', entry_at pt'.root he = some e' ∧
        e'.counter = ((call_strs (adds [he, hey, he])).count he : Int) + 1 ∧
        e'.word = some he) :=
  ⟨rfl, rfl, by decide, by decide,
    @add_counts_additions [] { root := calloc_node } (store_after (adds [he, hey, he]))
      (adds [he, hey, he]) [0, 0, 0] rfl rfl (by decide) he (by decide)⟩

theorem add_keeps_other_entries_witness :
    hey ≠ he ∧
    ptrie_add (store_after (adds [hey])) he [false, true]
      = some (-1, store_after [{ str := hey, alloc := [] }, { str := he, alloc := [false, true] }]) ∧
    entry_at (store_after (adds [hey])).root hey
      = some (obs (store_after (adds [hey])).root hey) ∧
    ∃ e', entry_at (store_after
        [{ str := hey, alloc := [] }, { str := he, alloc := [false, true] }]).root hey = some e' ∧
      e'.word = (obs (store_after (adds [hey])).root hey).word ∧
      e'.counter = (obs (store_after (adds [hey])).root hey).counter :=
  ⟨by decide, rfl, rfl,
    add_keeps_other_entries (store_after (adds [hey]))
      (store_after [{ str := hey, alloc := [] }, { str := he, alloc := [false, true] }])
      hey he [false, true] (-1) (obs (store_after (adds [hey])).root hey) (by decide) rfl rfl⟩

theorem stored_word_spells_path_witness :
    ptrie_allocate [] = some { root := calloc_node } ∧
    ptrie_add_calls { root := calloc_node }
        [{ str := he, alloc := [] }, { str := hey, alloc := [false] }]
      = some (store_after [{ str := he, alloc := [] }, { str := hey, alloc := [false] }],
          [0, -1]) ∧
    entry_on_path
        (store_after [{ str := he, alloc := [] }, { str := hey, alloc := [false] }]).root
        [104, 101]
      = some (obs
          (store_after [{ str := he, alloc := [] }, { str := hey, alloc := [false] }]).root he) ∧
    (obs (store_after [{ str := he, alloc := [] }, { str := hey, alloc := [false] }]).root
        he).word = some he ∧
    he = spelled [104, 101] :=
  ⟨rfl, rfl, rfl, rfl,
    @stored_word_spells_path [] { root := calloc_node }
      (store_after [{ str := he, alloc := [] }, { str := hey, alloc := [false] }])
      [{ str := he, alloc := [] }, { str := hey, alloc := [false] }] [0, -1] rfl rfl
      [104, 101]
      (obs (store_after [{ str := he, alloc := [] }, { str := hey, alloc := [false] }]).root he)
      he rfl rfl⟩

theorem autocomplete_returns_lex_smallest_witness :
    ptrie_allocate [] = some { root := calloc_node } ∧
    ptrie_add_calls { root := calloc_node } (adds [hey, hello, hello, helloworld])
      = some (store_after (adds [hey, hello, hello, helloworld]), [0, 0, 0, 0]) ∧
    (∀ r ∈ [(0 : Int), 0, 0, 0], r = 0) ∧
    no_nul (call_strs (adds [hey, hello, hello, helloworld])) ∧
    (∀ v ∈ call_strs (adds [hey, hello, hello, helloworld]), v ≠ []) ∧
    hey ∈ call_strs (adds [hey, hello, hello, helloworld]) ∧
    [104] <+: hey ∧
    256 * (max_len (call_strs (adds [hey, hello, hello, helloworld])) + 1) < 3000 ∧
    ∃ r, ptrie_autocomplete 3000 (store_after (adds [hey, hello, hello, helloworld])) [104]
        [true] = strdup_result [true] r ∧
      r ∈ call_strs (adds [hey, hello, hello, helloworld]) ∧ [104] <+: r ∧
      ∀ v ∈ call_strs (adds [hey, hello, hello, helloworld]), [104] <+: v →
        (r = v ∨ List.Lex (· < ·) r v) :=
  ⟨rfl, rfl, by decide, by unfold no_nul; decide, by decide, by decide, by decide, by decide,
    @autocomplete_returns_lex_smallest [] { root := calloc_node }
      (store_after (adds [hey, hello, hello, helloworld]))
      (adds [hey, hello, hello, helloworld]) [0, 0, 0, 0] rfl rfl (by decide)
      (by unfold no_nul; decide) (by decide) [104] hey (by decide) (by decide) 3000
      (by decide) [true]⟩

theorem autocomplete_finds_added_string_witness :
    ptrie_allocate [] = some { root := calloc_node } ∧
    ptrie_add_calls { root := calloc_node } (adds [hello, hey])
      = some (store_after (adds [hello, hey]), [0, 0]) ∧
    (∀ r ∈ [(0 : Int), 0], r = 0) ∧
    no_nul (call_strs (adds [hello, hey])) ∧
    hello ∈ call_strs (adds [hello, hey]) ∧ hello ≠ [] ∧ he <+: hello ∧
    256 * (max_len (call_strs (adds [hello, hey])) + 1) < 2000 ∧
    ∃ r, ptrie_autocomplete 2000 (store_after (adds [hello, hey])) he [true]
        = strdup_result [true] r ∧
      r ∈ call_strs (adds [hello, hey]) ∧ he <+: r ∧
      ((he ≠ [] ∧ he ∈ call_strs (adds [hello, hey]) ∧ r = he) ∨
        he.length < r.length) :=
  ⟨rfl, rfl, by decide, by unfold no_nul; decide, by decide, by decide, by decide, by decide,
    @autocomplete_finds_added_string [] { root := calloc_node }
      (store_after (adds [hello, hey])) (adds [hello, hey]) [0, 0] rfl rfl (by decide)
      (by unfold no_nul; decide) he hello (by decide) (by decide) (by decide) 2000
      (by decide) [true]⟩

theorem child_iff_added_string_through_witness :
    ptrie_allocate [] = some { root := calloc_node } ∧
    ptrie_add_calls { root := calloc_node } (adds [he, he])
      = some (store_after (adds [he, he]), [0, 0]) ∧
    (∀ r ∈ [(0 : Int), 0], r = 0) ∧
    (∀ (q : CString) (e : ptrie_entry ptrie_node),
      entry_at (store_after (adds [he, he])).root q = some e →
      (e.next.isSome ↔ ∃ w ∈ call_strs (adds [he, he]), q <+: w)) ∧
    (∀ w ∈ call_strs (adds [he, he]), w ≠ [] →
      ∃ e, entry_at (store_after (adds [he, he])).root w = some e ∧ e.next.isSome) ∧
    (∀ w ∈ call_strs (adds [he, he]), w ≠ [] → (∀ v ∈ call_strs (adds [he, he]), v = w) →
      ∃ e, entry_at (store_after (adds [he, he])).root w = some e ∧
        e.next = some calloc_node) :=
  ⟨rfl, rfl, by decide,
    @child_iff_added_string_through [] { root := calloc_node } (store_after (adds [he, he]))
      (adds [he, he]) [0, 0] rfl rfl (by decide)⟩

theorem add_order_irrelevant_witness :
    (call_strs (adds [he, hey])).Perm (call_strs (adds [hey, he])) ∧
    ptrie_add_calls (store_after (adds [hello])) (adds [he, hey])
      = some (store_after (adds [hello, he, hey]), [0, 0]) ∧
    (∀ r ∈ [(0 : Int), 0], r = 0) ∧
    ptrie_add_calls (store_after (adds [hello])) (adds [hey, he])
      = some (store_after (adds [hello, hey, he]), [0, 0]) ∧
    store_after (adds [hello, he, hey]) = store_after (adds [hello, hey, he]) ∧
    ∀ (fuel : Nat) (p : CString) (alloc : List Bool),
      ptrie_autocomplete fuel (store_after (adds [hello, he, hey])) p alloc
        = ptrie_autocomplete fuel (store_after (adds [hello, hey, he])) p alloc :=
  ⟨List.Perm.swap _ _ _, rfl, by decide, rfl,
    add_order_irrelevant (store_after (adds [hello])) (store_after (adds [hello, he, hey]))
      (store_after (adds [hello, hey, he])) (adds [he, hey]) (adds [hey, he]) [0, 0] [0, 0]
      (List.Perm.swap _ _ _) rfl (by decide) rfl (by decide)⟩

theorem autocomplete_terminates_witness :
    ptrie_allocate [] = some { root := calloc_node } ∧
    ptrie_add_calls { root := calloc_node }
        [{ str := hello, alloc := [] }, { str := hey, alloc := [true, false] }]
      = some (store_after
          [{ str := hello, alloc := [] }, { str := hey, alloc := [true, false] }], [0, -1]) ∧
    256 * (max_len (call_strs
        [{ str := hello, alloc := [] }, { str := hey, alloc := [true, false] }]) + 1) < 2000 ∧
    ptrie_autocomplete 2000
        (store_after [{ str := hello, alloc := [] }, { str := hey, alloc := [true, false] }])
        [104] [] ≠ .out_of_fuel ∧
    ptrie_autocomplete_descents 2000
        (store_after [{ str := hello, alloc := [] }, { str := hey, alloc := [true, false] }])
        [104]
      ≤ max_len (call_strs
          [{ str := hello, alloc := [] }, { str := hey, alloc := [true, false] }]) :=
  ⟨rfl, rfl, by decide,
    @autocomplete_terminates [] { root := calloc_node }
      (store_after [{ str := hello, alloc := [] }, { str := hey, alloc := [true, false] }])
      [{ str := hello, alloc := [] }, { str := hey, alloc := [true, false] }] [0, -1] rfl rfl
      [104] 2000 (by decide) []⟩

end Ptrie
